import Mathlib

/-!
Verification development for the stylesheet variable engine of
QtWidgetsCommonLib (`Utils/StylesheetLoader.cpp`).

Text is modelled as `List Char` (QString, UTF-16 code units restricted to the
ASCII range exercised by the grammar).  Each private routine of
`StylesheetLoader` is embedded as an executable Lean function that mirrors the
regular-expression scanning of the C++ source: leftmost match, non-overlapping
global scanning that restarts one position after a failed match attempt, greedy
character classes, and non-greedy block bodies (shortest span up to the first
closing brace).
-/

set_option maxRecDepth 10000

namespace StylesheetLoader

/-- Text as a list of characters (the model of `QString`). -/
abbrev Str := List Char

/-- Convert a Lean string literal to the model type. -/
def str (s : String) : Str := s.data

/-- Opening brace character (written numerically). -/
def lbrace : Char := Char.ofNat 123

/-- Closing brace character (written numerically). -/
def rbrace : Char := Char.ofNat 125

/-- The identifier class `[A-Za-z0-9_\-]` used by every regex in the source. -/
def identChar (c : Char) : Bool :=
  (65 ≤ c.toNat && c.toNat ≤ 90) || (97 ≤ c.toNat && c.toNat ≤ 122) ||
  (48 ≤ c.toNat && c.toNat ≤ 57) || c.toNat == 95 || c.toNat == 45

/-- ASCII whitespace, the class matched by `\s` and trimmed by `QString::trimmed`. -/
def isWs (c : Char) : Bool :=
  c == ' ' || c == '\t' || c == '\n' || c == '\r' || c.toNat == 11 || c.toNat == 12

/-- Boolean prefix test on character lists. -/
def pfx : Str → Str → Bool
  | [], _ => true
  | _ :: _, [] => false
  | a :: as, b :: bs => a == b && pfx as bs

/-- `p` occurs as a contiguous substring of `s`. -/
def containsSub (p : Str) : Str → Bool
  | [] => pfx p []
  | c :: rest => pfx p (c :: rest) || containsSub p rest

/-- Number of `'@'` characters in a string. -/
def atCount (s : Str) : Nat := s.count '@'

theorem pfx_length {p s : Str} (h : pfx p s = true) : p.length ≤ s.length := by
  induction p generalizing s with
  | nil => simp
  | cons a as ih =>
    cases s with
    | nil => simp [pfx] at h
    | cons b bs =>
      simp only [pfx, Bool.and_eq_true] at h
      simpa using ih h.2

theorem pfx_iff_append {p s : Str} : pfx p s = true ↔ ∃ t, s = p ++ t := by
  induction p generalizing s with
  | nil => simp [pfx]
  | cons a as ih =>
    cases s with
    | nil =>
      simp only [pfx, List.cons_append]
      constructor
      · intro h; cases h
      · rintro ⟨t, ht⟩; cases ht
    | cons b bs =>
      simp only [pfx, Bool.and_eq_true, beq_iff_eq, ih, List.cons_append]
      constructor
      · rintro ⟨rfl, t, rfl⟩; exact ⟨t, rfl⟩
      · rintro ⟨t, ht⟩
        injection ht with h1 h2
        exact ⟨h1.symm, t, h2⟩

theorem containsSub_iff {p s : Str} :
    containsSub p s = true ↔ ∃ l r, s = l ++ p ++ r := by
  induction s with
  | nil =>
    cases p with
    | nil => simp [containsSub, pfx]
    | cons a as =>
      simp only [containsSub, pfx]
      constructor
      · intro h; cases h
      · rintro ⟨l, r, h⟩
        exact absurd (congrArg List.length h) (by simp; omega)
  | cons c rest ih =>
    simp only [containsSub, Bool.or_eq_true, pfx_iff_append, ih]
    constructor
    · rintro (⟨t, ht⟩ | ⟨l, r, rfl⟩)
      · exact ⟨[], t, by simpa using ht⟩
      · exact ⟨c :: l, r, rfl⟩
    · rintro ⟨l, r, h⟩
      cases l with
      | nil => exact Or.inl ⟨r, by simpa using h⟩
      | cons x xs =>
        simp only [List.cons_append, List.cons.injEq] at h
        exact Or.inr ⟨xs, r, h.2⟩

/-- `QString::trimmed`: strip leading and trailing whitespace. -/
def trim (s : Str) : Str := ((s.dropWhile isWs).reverse.dropWhile isWs).reverse

/-- Lexicographic comparison of strings by code point (`QString::operator<`). -/
def strLt : Str → Str → Bool
  | [], [] => false
  | [], _ :: _ => true
  | _ :: _, [] => false
  | a :: as, b :: bs => a.toNat < b.toNat || (a == b && strLt as bs)

/-- The variable map (`QMap<QString, QString>`): an association list kept
sorted by key, so that iteration order matches `QMap`'s sorted iteration. -/
abbrev Vars := List (Str × Str)

/-- Insert-or-replace preserving the sorted key order (`map[name] = value`). -/
def varsInsert (k v : Str) : Vars → Vars
  | [] => [(k, v)]
  | (k', v') :: rest =>
    if k = k' then (k, v) :: rest
    else if strLt k k' then (k, v) :: (k', v') :: rest
    else (k', v') :: varsInsert k v rest

/-- Key lookup (`QMap::find` / `QMap::value`). -/
def lookupVar (k : Str) : Vars → Option Str
  | [] => none
  | (k', v') :: rest => if k = k' then some v' else lookupVar k rest

/-- Fuel-recursive core of `QString::replace(before, after)`; the fuel is a
structural-recursion device only, and the wrapper always supplies enough. -/
def replaceAllF : Nat → Str → Str → Str → Str
  | 0, _, _, s => s
  | Nat.succ f, p, r, s =>
    match p, s with
    | [], _ => s
    | _ :: _, [] => []
    | x :: xs, c :: rest =>
      if pfx (x :: xs) (c :: rest) then
        r ++ replaceAllF f (x :: xs) r ((c :: rest).drop (x :: xs).length)
      else c :: replaceAllF f (x :: xs) r rest

/-- `QString::replace(before, after)`: replace every non-overlapping occurrence
of `p`, left to right, never rescanning the replacement text. -/
def replaceAll (p r s : Str) : Str := replaceAllF (s.length + 1) p r s

theorem replaceAllF_irrel (p r : Str) : ∀ fuel fuel' (s : Str), s.length < fuel →
    s.length < fuel' → replaceAllF fuel p r s = replaceAllF fuel' p r s := by
  intro fuel
  induction fuel with
  | zero => intro fuel' s h; exact absurd h (Nat.not_lt_zero _)
  | succ f ih =>
    intro fuel' s h h'
    obtain ⟨g, rfl⟩ : ∃ g, fuel' = g + 1 := ⟨fuel' - 1, by omega⟩
    cases p with
    | nil => rfl
    | cons x xs =>
      cases s with
      | nil => rfl
      | cons c rest =>
        simp only [replaceAllF]
        by_cases hp : pfx (x :: xs) (c :: rest) = true
        · rw [if_pos hp, if_pos hp]
          congr 1
          have hle := pfx_length hp
          apply ih
          · simp only [List.length_drop, List.length_cons] at h ⊢
            omega
          · simp only [List.length_drop, List.length_cons] at h' ⊢
            omega
        · rw [if_neg hp, if_neg hp]
          congr 1
          apply ih
          · simp only [List.length_cons] at h
            omega
          · simp only [List.length_cons] at h'
            omega

theorem replaceAll_nilp (r s : Str) : replaceAll [] r s = s := by
  cases s <;> rfl

theorem replaceAll_nils (x : Char) (xs r : Str) : replaceAll (x :: xs) r [] = [] := rfl

theorem replaceAll_cons (x : Char) (xs r : Str) (c : Char) (rest : Str) :
    replaceAll (x :: xs) r (c :: rest) =
      if pfx (x :: xs) (c :: rest) then
        r ++ replaceAll (x :: xs) r ((c :: rest).drop (x :: xs).length)
      else c :: replaceAll (x :: xs) r rest := by
  have e1 : replaceAllF ((c :: rest).length + 1) (x :: xs) r (c :: rest) =
      if pfx (x :: xs) (c :: rest) then
        r ++ replaceAllF (c :: rest).length (x :: xs) r ((c :: rest).drop (x :: xs).length)
      else c :: replaceAllF (c :: rest).length (x :: xs) r rest := rfl
  rw [replaceAll, e1]
  by_cases hp : pfx (x :: xs) (c :: rest) = true
  · rw [if_pos hp, if_pos hp]
    congr 1
    have hle := pfx_length hp
    rw [replaceAll]
    apply replaceAllF_irrel
    · simp only [List.length_drop, List.length_cons]
      omega
    · omega
  · rw [if_neg hp, if_neg hp]
    have e2 : replaceAllF (c :: rest).length (x :: xs) r rest = replaceAll (x :: xs) r rest := by
      rw [replaceAll]
      apply replaceAllF_irrel
      · simp only [List.length_cons]
        omega
      · omega
    rw [e2]

/-- First character is an identifier character. -/
def headIdent : Str → Bool
  | [] => false
  | d :: _ => identChar d

/-- First `@identifier` token of a value: the first match of the regex
`@([A-Za-z0-9\-_]+)` in `resolve_variable`, capturing the maximal run of
identifier characters after the sigil. -/
def findToken : Str → Option Str
  | [] => none
  | c :: rest =>
    if c == '@' && headIdent rest then some (rest.takeWhile identChar)
    else findToken rest

/-- The recursion of `StylesheetLoader::resolve_variable` as one structurally
fuel-recursive function.  With the selector `true` the string argument is a
variable name and the body is `resolve_variable` itself; with `false` it is a
value being processed by the `while (match.hasMatch())` loop, which resolves
the first `@token`, substitutes it via plain `QString::replace`, and rescans.
The `Nat` argument is proof fuel (the C++ recursion has no such counter); the
returned `Bool` records whether the computation finished within the fuel, and
the returned list is the seen-set, which the C++ passes by reference and
mutates. -/
def resolveGo : Nat → Bool → Str → Vars → List Str → Str × List Str × Bool
  | 0, isVar, arg, _, seen => (if isVar then [] else arg, seen, false)
  | Nat.succ f, true, name, vars, seen =>
    if name ∈ seen then ([], seen, true)
    else
      match lookupVar name vars with
      | none => ([], name :: seen, true)
      | some value => resolveGo f false value vars (name :: seen)
  | Nat.succ f, false, value, vars, seen =>
    match findToken value with
    | none => (value, seen, true)
    | some inner =>
      match resolveGo f true inner vars seen with
      | (r, seen', ok1) =>
        match resolveGo f false (replaceAll ('@' :: inner) r value) vars seen' with
        | (v', seen'', ok2) => (v', seen'', ok1 && ok2)

/-- `StylesheetLoader::resolve_variable`. -/
def resolveVar (f : Nat) (name : Str) (vars : Vars) (seen : List Str) :
    Str × List Str × Bool :=
  resolveGo f true name vars seen

/-- The substitution loop inside `resolve_variable`. -/
def resolveLoop (f : Nat) (value : Str) (vars : Vars) (seen : List Str) :
    Str × List Str × Bool :=
  resolveGo f false value vars seen

theorem resolveVar_zero (name : Str) (vars : Vars) (seen : List Str) :
    resolveVar 0 name vars seen = ([], seen, false) := rfl

theorem resolveLoop_zero (value : Str) (vars : Vars) (seen : List Str) :
    resolveLoop 0 value vars seen = (value, seen, false) := rfl

theorem resolveVar_succ_mem {name : Str} {seen : List Str} (vars : Vars) (f : Nat)
    (h : name ∈ seen) : resolveVar (f + 1) name vars seen = ([], seen, true) := by
  simp [resolveVar, resolveGo, h]

theorem resolveVar_succ_none {name : Str} {vars : Vars} {seen : List Str} (f : Nat)
    (hmem : name ∉ seen) (hlk : lookupVar name vars = none) :
    resolveVar (f + 1) name vars seen = ([], name :: seen, true) := by
  simp [resolveVar, resolveGo, hmem, hlk]

theorem resolveVar_succ_some {name value : Str} {vars : Vars} {seen : List Str} (f : Nat)
    (hmem : name ∉ seen) (hlk : lookupVar name vars = some value) :
    resolveVar (f + 1) name vars seen = resolveLoop f value vars (name :: seen) := by
  simp [resolveVar, resolveLoop, resolveGo, hmem, hlk]

theorem resolveLoop_succ_none {value : Str} {vars : Vars} {seen : List Str} (f : Nat)
    (h : findToken value = none) : resolveLoop (f + 1) value vars seen = (value, seen, true) := by
  simp [resolveLoop, resolveGo, h]

theorem resolveLoop_succ_some {value inner : Str} {vars : Vars} {seen : List Str} (f : Nat)
    (h : findToken value = some inner) {r : Str} {seen' : List Str} {ok1 : Bool}
    (hv : resolveVar f inner vars seen = (r, seen', ok1)) :
    resolveLoop (f + 1) value vars seen =
      ((resolveLoop f (replaceAll ('@' :: inner) r value) vars seen').1,
       (resolveLoop f (replaceAll ('@' :: inner) r value) vars seen').2.1,
       ok1 && (resolveLoop f (replaceAll ('@' :: inner) r value) vars seen').2.2) := by
  rw [resolveVar] at hv
  simp only [resolveLoop, resolveGo, h, hv]

/-- Fuel monotonicity: once a resolution completes within some fuel, any larger
fuel produces the identical result.  This makes the fuel a proof artefact
rather than part of the modelled behaviour. -/
theorem resolve_mono : ∀ f : Nat,
    (∀ g name vars seen, f ≤ g → (resolveVar f name vars seen).2.2 = true →
      resolveVar g name vars seen = resolveVar f name vars seen) ∧
    (∀ g value vars seen, f ≤ g → (resolveLoop f value vars seen).2.2 = true →
      resolveLoop g value vars seen = resolveLoop f value vars seen) := by
  intro f
  induction f with
  | zero =>
    constructor
    · intro g name vars seen _ hok
      simp [resolveVar_zero] at hok
    · intro g value vars seen _ hok
      simp [resolveLoop_zero] at hok
  | succ f ih =>
    obtain ⟨ihV, ihL⟩ := ih
    constructor
    · intro g name vars seen hg hok
      obtain ⟨g', rfl⟩ : ∃ g', g = g' + 1 := ⟨g - 1, by omega⟩
      have hg' : f ≤ g' := by omega
      by_cases hmem : name ∈ seen
      · rw [resolveVar_succ_mem vars g' hmem, resolveVar_succ_mem vars f hmem]
      · cases hlk : lookupVar name vars with
        | none => rw [resolveVar_succ_none g' hmem hlk, resolveVar_succ_none f hmem hlk]
        | some value =>
          rw [resolveVar_succ_some g' hmem hlk, resolveVar_succ_some f hmem hlk]
          rw [resolveVar_succ_some f hmem hlk] at hok
          exact ihL g' value vars (name :: seen) hg' hok
    · intro g value vars seen hg hok
      obtain ⟨g', rfl⟩ : ∃ g', g = g' + 1 := ⟨g - 1, by omega⟩
      have hg' : f ≤ g' := by omega
      cases hft : findToken value with
      | none => rw [resolveLoop_succ_none g' hft, resolveLoop_succ_none f hft]
      | some inner =>
        rcases hv : resolveVar f inner vars seen with ⟨r, seen', ok1⟩
        rw [resolveLoop_succ_some f hft hv] at hok
        simp only [Bool.and_eq_true] at hok
        have hv' : resolveVar g' inner vars seen = (r, seen', ok1) := by
          rw [ihV g' inner vars seen hg' (by rw [hv]; exact hok.1), hv]
        have hcont := ihL g' (replaceAll ('@' :: inner) r value) vars seen' hg' hok.2
        rw [resolveLoop_succ_some g' hft hv', resolveLoop_succ_some f hft hv, hcont]

/-- The seen-set only ever grows (the C++ inserts and never removes). -/
theorem resolve_seen_mono : ∀ f : Nat,
    (∀ name vars seen, seen ⊆ (resolveVar f name vars seen).2.1) ∧
    (∀ value vars seen, seen ⊆ (resolveLoop f value vars seen).2.1) := by
  intro f
  induction f with
  | zero =>
    exact ⟨fun name vars seen => by simp [resolveVar_zero],
           fun value vars seen => by simp [resolveLoop_zero]⟩
  | succ f ih =>
    obtain ⟨ihV, ihL⟩ := ih
    constructor
    · intro name vars seen
      by_cases hmem : name ∈ seen
      · simp [resolveVar_succ_mem vars f hmem]
      · cases hlk : lookupVar name vars with
        | none => simp [resolveVar_succ_none f hmem hlk, List.subset_cons_of_subset]
        | some value =>
          rw [resolveVar_succ_some f hmem hlk]
          exact fun x hx => ihL value vars (name :: seen) (List.mem_cons_of_mem _ hx)
    · intro value vars seen
      cases hft : findToken value with
      | none => simp [resolveLoop_succ_none f hft]
      | some inner =>
        rcases hv : resolveVar f inner vars seen with ⟨r, seen', ok1⟩
        rw [resolveLoop_succ_some f hft hv]
        have h1 : seen ⊆ seen' := by
          have := ihV inner vars seen
          rwa [hv] at this
        exact h1.trans (ihL (replaceAll ('@' :: inner) r value) vars seen')

/-- A found token gives a literal occurrence of `@token` in the value, and the
token is a nonempty run of identifier characters. -/
theorem findToken_some_spec : ∀ {v t : Str}, findToken v = some t →
    containsSub ('@' :: t) v = true ∧ t ≠ [] := by
  intro v
  induction v with
  | nil => intro t h; simp [findToken] at h
  | cons c rest ih =>
    intro t h
    rw [findToken] at h
    split at h
    · rename_i hc
      simp only [Bool.and_eq_true, beq_iff_eq] at hc
      injection h with h
      constructor
      · have hpf : pfx ('@' :: t) (c :: rest) = true := by
          rw [pfx_iff_append]
          refine ⟨rest.dropWhile identChar, ?_⟩
          rw [hc.1, ← h]
          simp [List.takeWhile_append_dropWhile]
        simp [containsSub, hpf]
      · rcases hrest : rest with _ | ⟨d, ds⟩
        · rw [hrest] at hc; simp [headIdent] at hc
        · rw [hrest] at h hc
          rw [List.takeWhile] at h
          rw [headIdent] at hc
          rw [hc.2] at h
          simp at h
          intro hcon
          rw [hcon] at h
          cases h
    · rename_i hc
      obtain ⟨h1, h2⟩ := ih h
      refine ⟨?_, h2⟩
      simp [containsSub, h1]

/-- A value with no `'@'` character has no token. -/
theorem findToken_none_of_atCount_zero : ∀ {v : Str}, atCount v = 0 → findToken v = none := by
  intro v
  induction v with
  | nil => intro _; rfl
  | cons c rest ih =>
    intro h
    rw [atCount, List.count_cons] at h
    split at h
    · omega
    · rename_i hc
      have hrest : atCount rest = 0 := by rw [atCount]; omega
      rw [findToken]
      have hcf : (c == '@') = false := by
        rcases hb : (c == '@') with _ | _
        · rfl
        · exact absurd hb hc
      rw [hcf]
      simp only [Bool.false_and, Bool.false_eq_true, if_false]
      exact ih hrest

theorem atCount_append (a b : Str) : atCount (a ++ b) = atCount a + atCount b :=
  List.count_append _ _ _

/-- Deleting every occurrence of a pattern never increases the `'@'` count. -/
theorem replaceAll_del_le (p : Str) : ∀ n (v : Str), v.length ≤ n →
    atCount (replaceAll p [] v) ≤ atCount v := by
  intro n
  induction n with
  | zero =>
    intro v hv
    have : v = [] := List.length_eq_zero.mp (Nat.le_zero.mp hv)
    subst this
    cases p with
    | nil => rw [replaceAll_nilp]
    | cons x xs => rw [replaceAll_nils]
  | succ n ihn =>
    intro v hv
    cases p with
    | nil => rw [replaceAll_nilp]
    | cons x xs =>
      cases v with
      | nil => rw [replaceAll_nils]
      | cons c rest =>
        rw [replaceAll_cons]
        by_cases hp : pfx (x :: xs) (c :: rest) = true
        · rw [if_pos hp]
          obtain ⟨t, ht⟩ := pfx_iff_append.mp hp
          have hdrop : (c :: rest).drop (x :: xs).length = t := by
            rw [ht]; exact List.drop_left _ _
          rw [hdrop, List.nil_append, ht, atCount_append]
          have hlen : t.length ≤ n := by
            have := congrArg List.length ht
            simp at this hv
            omega
          exact (ihn t hlen).trans (Nat.le_add_left _ _)
        · rw [if_neg hp]
          have hlen : rest.length ≤ n := by simp at hv; omega
          rw [atCount, atCount, List.count_cons, List.count_cons]
          have := ihn rest hlen
          rw [atCount, atCount] at this
          omega

/-- Deleting every occurrence of a pattern that contains `'@'` and does occur
strictly decreases the `'@'` count. -/
theorem replaceAll_del_lt (p : Str) (hat : '@' ∈ p) : ∀ n (v : Str), v.length ≤ n →
    containsSub p v = true → atCount (replaceAll p [] v) < atCount v := by
  intro n
  induction n with
  | zero =>
    intro v hv hc
    have : v = [] := List.length_eq_zero.mp (Nat.le_zero.mp hv)
    subst this
    cases p with
    | nil => cases hat
    | cons x xs => simp [containsSub, pfx] at hc
  | succ n ihn =>
    intro v hv hc
    cases p with
    | nil => cases hat
    | cons x xs =>
      cases v with
      | nil => simp [containsSub, pfx] at hc
      | cons c rest =>
        rw [replaceAll_cons]
        by_cases hp : pfx (x :: xs) (c :: rest) = true
        · rw [if_pos hp]
          obtain ⟨t, ht⟩ := pfx_iff_append.mp hp
          have hdrop : (c :: rest).drop (x :: xs).length = t := by
            rw [ht]; exact List.drop_left _ _
          rw [hdrop, List.nil_append, ht, atCount_append]
          have hlen : t.length ≤ n := by
            have := congrArg List.length ht
            simp at this hv
            omega
          have h1 : atCount (replaceAll (x :: xs) [] t) ≤ atCount t := replaceAll_del_le _ n t hlen
          have h2 : 1 ≤ atCount (x :: xs) := List.count_pos_iff.mpr hat
          omega
        · rw [if_neg hp]
          have hc' : containsSub (x :: xs) rest = true := by
            rw [containsSub, Bool.or_eq_true] at hc
            rcases hc with hc | hc
            · exact absurd hc hp
            · exact hc
          have hlen : rest.length ≤ n := by simp at hv; omega
          rw [atCount, atCount, List.count_cons, List.count_cons]
          have := ihn rest hlen hc'
          rw [atCount, atCount] at this
          omega

/-- The termination measure: how many keys of the map are not yet seen. -/
def notSeen (vars : Vars) (seen : List Str) : Nat :=
  ((vars.map Prod.fst).filter (fun k => decide (k ∉ seen))).length

theorem filter_notMem_mono {l s s' : List Str} (h : s ⊆ s') :
    (l.filter (fun k => decide (k ∉ s'))).length ≤
      (l.filter (fun k => decide (k ∉ s))).length := by
  induction l with
  | nil => simp
  | cons k ks ih =>
    by_cases hk : k ∈ s'
    · have hlhs : (decide (k ∉ s')) = false := by simp [hk]
      rw [List.filter_cons, hlhs]
      simp only [Bool.false_eq_true, if_false]
      refine ih.trans ?_
      rw [List.filter_cons]
      split <;> simp
    · have hk2 : k ∉ s := fun hmem => hk (h hmem)
      rw [List.filter_cons, List.filter_cons]
      have e1 : (decide (k ∉ s')) = true := by simpa using hk
      have e2 : (decide (k ∉ s)) = true := by simpa using hk2
      rw [e1, e2]
      simpa using ih

theorem notSeen_mono (vars : Vars) {s s' : List Str} (h : s ⊆ s') :
    notSeen vars s' ≤ notSeen vars s :=
  filter_notMem_mono h

theorem notSeen_insert_lt (vars : Vars) {inner : Str} {seen : List Str}
    (hk : inner ∈ vars.map Prod.fst) (hmem : inner ∉ seen) :
    notSeen vars (inner :: seen) < notSeen vars seen := by
  rw [notSeen, notSeen]
  generalize vars.map Prod.fst = l at hk
  induction l with
  | nil => cases hk
  | cons k ks ih =>
    by_cases hke : k = inner
    · subst hke
      have h1 : (decide (k ∉ k :: seen)) = false := by simp
      have h2 : (decide (k ∉ seen)) = true := by simpa using hmem
      rw [List.filter_cons, List.filter_cons, h1, h2]
      rw [if_neg (by simp), if_pos rfl]
      have := @filter_notMem_mono ks seen (k :: seen) (List.subset_cons_self k seen)
      simp only [List.length_cons]
      omega
    · have hk' : inner ∈ ks := by
        rcases List.mem_cons.mp hk with h | h
        · exact absurd h.symm hke
        · exact h
      have heq : (decide (k ∉ inner :: seen)) = (decide (k ∉ seen)) := by
        refine decide_eq_decide.mpr ?_
        constructor
        · intro hn hs
          exact hn (List.mem_cons_of_mem _ hs)
        · intro hn hs
          rcases List.mem_cons.mp hs with h | h
          · exact hke h
          · exact hn h
      rw [List.filter_cons, List.filter_cons, heq]
      have := ih hk'
      split
      · simp only [List.length_cons]; omega
      · omega

theorem lookupVar_mem {k v : Str} : ∀ {vars : Vars}, lookupVar k vars = some v →
    k ∈ vars.map Prod.fst := by
  intro vars
  induction vars with
  | nil => intro h; cases h
  | cons kv rest ih =>
    intro h
    rw [lookupVar] at h
    split at h
    · rename_i heq
      simp [heq]
    · simpa using Or.inr (ih h)

/-- Core termination argument: for every map, value and seen-set there is a
fuel bound beyond which the resolution loop completes with a stable result,
and the completed value contains no `@identifier` token.  The induction is on
the number of unseen keys and, below that, on the number of `'@'` characters
in the value — exactly the reason the C++ loop terminates. -/
theorem resolveLoop_term (vars : Vars) : ∀ n c (value : Str) (seen : List Str),
    notSeen vars seen ≤ n → atCount value ≤ c →
    ∃ F r s', (∀ f, F ≤ f → resolveLoop f value vars seen = (r, s', true)) ∧
      findToken r = none ∧ seen ⊆ s' := by
  intro n
  induction n using Nat.strong_induction_on with
  | _ n ihn =>
    intro c
    induction c using Nat.strong_induction_on with
    | _ c ihc =>
      intro value seen hK hC
      cases hft : findToken value with
      | none =>
        refine ⟨1, value, seen, ?_, hft, fun x hx => hx⟩
        intro f hf
        obtain ⟨f', rfl⟩ : ∃ f', f = f' + 1 := ⟨f - 1, by omega⟩
        exact resolveLoop_succ_none f' hft
      | some inner =>
        obtain ⟨hocc, hne⟩ := findToken_some_spec hft
        have hat : '@' ∈ ('@' :: inner) := List.mem_cons_self _ _
        by_cases hmem : inner ∈ seen
        · have hlt : atCount (replaceAll ('@' :: inner) [] value) < atCount value :=
            replaceAll_del_lt _ hat value.length value le_rfl hocc
          obtain ⟨F₁, r, s', hstab, hr, hsub⟩ :=
            ihc _ (lt_of_lt_of_le hlt hC) _ seen hK le_rfl
          refine ⟨F₁ + 2, r, s', ?_, hr, hsub⟩
          intro f hf
          obtain ⟨f', rfl⟩ : ∃ f', f = f' + 1 := ⟨f - 1, by omega⟩
          obtain ⟨f'', rfl⟩ : ∃ f'', f' = f'' + 1 := ⟨f' - 1, by omega⟩
          rw [resolveLoop_succ_some (f'' + 1) hft (resolveVar_succ_mem vars f'' hmem)]
          rw [hstab (f'' + 1) (by omega)]
          simp
        · cases hlk : lookupVar inner vars with
          | none =>
            have hK₂ : notSeen vars (inner :: seen) ≤ n :=
              le_trans (notSeen_mono vars (List.subset_cons_self inner seen)) hK
            have hlt : atCount (replaceAll ('@' :: inner) [] value) < atCount value :=
              replaceAll_del_lt _ hat value.length value le_rfl hocc
            obtain ⟨F₁, r, s', hstab, hr, hsub⟩ :=
              ihc _ (lt_of_lt_of_le hlt hC) _ (inner :: seen) hK₂ le_rfl
            refine ⟨F₁ + 2, r, s', ?_, hr, ?_⟩
            · intro f hf
              obtain ⟨f', rfl⟩ : ∃ f', f = f' + 1 := ⟨f - 1, by omega⟩
              obtain ⟨f'', rfl⟩ : ∃ f'', f' = f'' + 1 := ⟨f' - 1, by omega⟩
              rw [resolveLoop_succ_some (f'' + 1) hft (resolveVar_succ_none f'' hmem hlk)]
              rw [hstab (f'' + 1) (by omega)]
              simp
            · exact fun x hx => hsub (List.mem_cons_of_mem _ hx)
          | some w =>
            have hkmem : inner ∈ vars.map Prod.fst := lookupVar_mem hlk
            have hKlt : notSeen vars (inner :: seen) < notSeen vars seen :=
              notSeen_insert_lt vars hkmem hmem
            obtain ⟨m, rfl⟩ : ∃ m, n = m + 1 := ⟨n - 1, by omega⟩
            have h1 : notSeen vars (inner :: seen) ≤ m := by omega
            obtain ⟨F₁, r₁, s₁, hstab₁, hr₁, hsub₁⟩ :=
              ihn m (by omega) (atCount w) w (inner :: seen) h1 le_rfl
            have hK₂ : notSeen vars s₁ ≤ m := le_trans (notSeen_mono vars hsub₁) h1
            obtain ⟨F₂, r₂, s₂, hstab₂, hr₂, hsub₂⟩ :=
              ihn m (by omega) (atCount (replaceAll ('@' :: inner) r₁ value))
                (replaceAll ('@' :: inner) r₁ value) s₁ hK₂ le_rfl
            refine ⟨F₁ + F₂ + 2, r₂, s₂, ?_, hr₂, ?_⟩
            · intro f hf
              obtain ⟨f', rfl⟩ : ∃ f', f = f' + 1 := ⟨f - 1, by omega⟩
              obtain ⟨f'', rfl⟩ : ∃ f'', f' = f'' + 1 := ⟨f' - 1, by omega⟩
              have hv : resolveVar (f'' + 1) inner vars seen = (r₁, s₁, true) := by
                rw [resolveVar_succ_some f'' hmem hlk]
                exact hstab₁ f'' (by omega)
              rw [resolveLoop_succ_some (f'' + 1) hft hv]
              rw [hstab₂ (f'' + 1) (by omega)]
              simp
            · exact fun x hx => hsub₂ (hsub₁ (List.mem_cons_of_mem _ hx))

/-- Top-level termination: resolving any name over any raw mapping reaches,
for all sufficiently large fuel, one stable completed result whose value has
no remaining `@identifier` token. -/
theorem resolveVar_term (vars : Vars) (name : Str) :
    ∃ F r s', (∀ f, F ≤ f → resolveVar f name vars [] = (r, s', true)) ∧
      findToken r = none := by
  cases hlk : lookupVar name vars with
  | none =>
    refine ⟨1, [], [name], ?_, rfl⟩
    intro f hf
    obtain ⟨f', rfl⟩ : ∃ f', f = f' + 1 := ⟨f - 1, by omega⟩
    exact resolveVar_succ_none f' (List.not_mem_nil name) hlk
  | some w =>
    obtain ⟨F, r, s', hstab, hr, _⟩ :=
      resolveLoop_term vars (notSeen vars [name]) (atCount w) w [name] le_rfl le_rfl
    refine ⟨F + 1, r, s', ?_, hr⟩
    intro f hf
    obtain ⟨f', rfl⟩ : ∃ f', f = f' + 1 := ⟨f - 1, by omega⟩
    rw [resolveVar_succ_some f' (List.not_mem_nil name) hlk]
    exact hstab f' (by omega)

/-- One top-level resolution (the per-key call in
`process_and_apply_stylesheet`, which starts from a fresh seen-set). -/
def resolveTop (fuel : Nat) (name : Str) (vars : Vars) : Str :=
  (resolveVar fuel name vars []).1

/-- Whether one top-level resolution completed within the fuel. -/
def resolveTopOk (fuel : Nat) (name : Str) (vars : Vars) : Bool :=
  (resolveVar fuel name vars []).2.2

/-- Step 3 of `process_and_apply_stylesheet`: rebuild the map with every value
fully resolved (iteration over the sorted keys, fresh seen-set per key). -/
def resolveAll (fuel : Nat) (vars : Vars) : Vars :=
  vars.map (fun kv => (kv.1, resolveTop fuel kv.1 vars))

/-- All per-key resolutions completed within the fuel. -/
def resolveAllOk (fuel : Nat) (vars : Vars) : Bool :=
  vars.all (fun kv => resolveTopOk fuel kv.1 vars)

/-- Boundary test for the negative lookahead `(?![A-Za-z0-9_\-])`. -/
def boundaryOk : Str → Bool
  | [] => true
  | c :: _ => !identChar c

/-- Fuel-recursive core of the single-key token replacement. -/
def replaceTokensF : Nat → Str → Str → Str → Str
  | 0, _, _, s => s
  | Nat.succ f, key, val, s =>
    match s with
    | [] => []
    | c :: rest =>
      if c == '@' && pfx key rest && boundaryOk (rest.drop key.length) then
        val ++ replaceTokensF f key val (rest.drop key.length)
      else c :: replaceTokensF f key val rest

/-- One pass of `substitute_variables` for a single key: replace every
whole-token occurrence `@key` (with the lookahead boundary) by `val`,
scanning left to right and not rescanning replacement text. -/
def replaceTokens (key val s : Str) : Str := replaceTokensF (s.length + 1) key val s

theorem replaceTokensF_irrel (key val : Str) : ∀ fuel fuel' (s : Str), s.length < fuel →
    s.length < fuel' → replaceTokensF fuel key val s = replaceTokensF fuel' key val s := by
  intro fuel
  induction fuel with
  | zero => intro fuel' s h; exact absurd h (Nat.not_lt_zero _)
  | succ f ih =>
    intro fuel' s h h'
    obtain ⟨g, rfl⟩ : ∃ g, fuel' = g + 1 := ⟨fuel' - 1, by omega⟩
    cases s with
    | nil => rfl
    | cons c rest =>
      simp only [replaceTokensF]
      by_cases hc : (c == '@' && pfx key rest && boundaryOk (rest.drop key.length)) = true
      · rw [if_pos hc, if_pos hc]
        congr 1
        apply ih
        · simp only [List.length_drop, List.length_cons] at h ⊢
          omega
        · simp only [List.length_drop, List.length_cons] at h' ⊢
          omega
      · rw [if_neg hc, if_neg hc]
        have e : replaceTokensF f key val rest = replaceTokensF g key val rest := by
          apply ih
          · simp only [List.length_cons] at h
            omega
          · simp only [List.length_cons] at h'
            omega
        rw [e]

theorem replaceTokens_nil (key val : Str) : replaceTokens key val [] = [] := rfl

theorem replaceTokens_cons (key val : Str) (c : Char) (rest : Str) :
    replaceTokens key val (c :: rest) =
      if c == '@' && pfx key rest && boundaryOk (rest.drop key.length) then
        val ++ replaceTokens key val (rest.drop key.length)
      else c :: replaceTokens key val rest := by
  have e1 : replaceTokensF ((c :: rest).length + 1) key val (c :: rest) =
      if c == '@' && pfx key rest && boundaryOk (rest.drop key.length) then
        val ++ replaceTokensF (c :: rest).length key val (rest.drop key.length)
      else c :: replaceTokensF (c :: rest).length key val rest := rfl
  rw [replaceTokens, e1]
  by_cases hc : (c == '@' && pfx key rest && boundaryOk (rest.drop key.length)) = true
  · rw [if_pos hc, if_pos hc]
    congr 1
    rw [replaceTokens]
    apply replaceTokensF_irrel
    · simp only [List.length_drop, List.length_cons]
      omega
    · omega
  · rw [if_neg hc, if_neg hc]
    have e2 : replaceTokensF (c :: rest).length key val rest = replaceTokens key val rest := by
      rw [replaceTokens]
      apply replaceTokensF_irrel
      · simp only [List.length_cons]
        omega
      · omega
    rw [e2]

/-- Stable insertion into a list sorted by non-increasing string length. -/
def insertLenDesc (x : Str) : List Str → List Str
  | [] => [x]
  | y :: ys => if y.length < x.length then x :: y :: ys else y :: insertLenDesc x ys

/-- Sort by descending length (`std::sort` with `a.length() > b.length()`;
the C++ comparator leaves the order of equal-length names unspecified, so the
embedding fixes the stable choice). -/
def sortLenDesc : List Str → List Str
  | [] => []
  | x :: xs => insertLenDesc x (sortLenDesc xs)

/-- `StylesheetLoader::substitute_variables`: replace each variable, longest
names first, whole-token matches only. -/
def substituteVariables (vars : Vars) (text : Str) : Str :=
  (sortLenDesc (vars.map Prod.fst)).foldl
    (fun acc k => replaceTokens k ((lookupVar k vars).getD []) acc) text

theorem len_dropWhile_le (p : Char → Bool) (l : Str) : (l.dropWhile p).length ≤ l.length := by
  induction l with
  | nil => simp
  | cons c rest ih =>
    rw [List.dropWhile]
    split
    · simpa using Nat.le_succ_of_le ih
    · simp

theorem len_takeWhile_le (p : Char → Bool) (l : Str) : (l.takeWhile p).length ≤ l.length := by
  induction l with
  | nil => simp
  | cons c rest ih =>
    rw [List.takeWhile]
    split
    · simpa using ih
    · simp

/-- The regex fragment `\s*\{([\s\S]*?)\}`: skip whitespace, require an opening
brace, capture the shortest span up to the first closing brace (which must
exist).  Returns the captured content and the remainder after the brace. -/
def matchOpenAt (s : Str) : Option (Str × Str) :=
  let r := s.dropWhile isWs
  if pfx [lbrace] r then
    let content := (r.drop 1).takeWhile (fun d => !(d == rbrace))
    let k := (r.drop 1).drop content.length
    if pfx [rbrace] k then some (content, k.drop 1) else none
  else none

/-- Attempt to match the block-removal pattern
`@Variables(\[Name="[^"]*"\])?\s*\{[\s\S]*?\}` at the start of `s`; on success
return the remainder of the text after the match.  A present `[` whose tag
part fails to parse cannot fall back to the untagged alternative, because the
regex would then have to match `\s*\{` starting at the `[`, which fails. -/
def matchBlockAt (s : Str) : Option Str :=
  if pfx (str "@Variables") s then
    let r := s.drop 10
    if pfx (str "[Name=\"") r then
      let t := r.drop 7
      let k := t.drop (t.takeWhile (fun d => !(d == '"'))).length
      if pfx (str "\"]") k then (matchOpenAt (k.drop 2)).map (fun cr => cr.2)
      else none
    else (matchOpenAt r).map (fun cr => cr.2)
  else none

theorem matchOpenAt_shrink {s : Str} {c r : Str} (h : matchOpenAt s = some (c, r)) :
    r.length < s.length := by
  rw [matchOpenAt] at h
  simp only [] at h
  by_cases h1 : pfx [lbrace] (s.dropWhile isWs) = true
  · rw [if_pos h1] at h
    by_cases h2 : pfx [rbrace]
        (((s.dropWhile isWs).drop 1).drop
          (((s.dropWhile isWs).drop 1).takeWhile (fun d => !(d == rbrace))).length) = true
    · rw [if_pos h2] at h
      injection h with h
      injection h with hc hr
      have l1 : (s.dropWhile isWs).length ≤ s.length := len_dropWhile_le _ _
      have l2 : 1 ≤ (s.dropWhile isWs).length := pfx_length h1
      have l3 : 1 ≤ (((s.dropWhile isWs).drop 1).drop
          (((s.dropWhile isWs).drop 1).takeWhile (fun d => !(d == rbrace))).length).length :=
        pfx_length h2
      have l4 : (((s.dropWhile isWs).drop 1).drop
          (((s.dropWhile isWs).drop 1).takeWhile (fun d => !(d == rbrace))).length).length
          ≤ ((s.dropWhile isWs).drop 1).length := by
        rw [List.length_drop]; omega
      rw [← hr]
      simp only [List.length_drop] at l4 ⊢
      simp only [List.length_drop] at l3
      omega
    · rw [if_neg h2] at h; cases h
  · rw [if_neg h1] at h; cases h

theorem matchBlockAt_shrink {s r : Str} (h : matchBlockAt s = some r) :
    r.length < s.length := by
  rw [matchBlockAt] at h
  simp only [] at h
  by_cases hp : pfx (str "@Variables") s = true
  · rw [if_pos hp] at h
    have h10 : 10 ≤ s.length := by
      have := pfx_length hp
      simpa [str] using this
    by_cases hn : pfx (str "[Name=\"") (s.drop 10) = true
    · rw [if_pos hn] at h
      by_cases hq : pfx (str "\"]")
          (((s.drop 10).drop 7).drop
            (((s.drop 10).drop 7).takeWhile (fun d => !(d == '"'))).length) = true
      · rw [if_pos hq] at h
        rcases hmo : matchOpenAt
            ((((s.drop 10).drop 7).drop
              (((s.drop 10).drop 7).takeWhile (fun d => !(d == '"'))).length).drop 2)
            with _ | ⟨cc, rr⟩
        · rw [hmo] at h; cases h
        · rw [hmo] at h
          injection h with h
          subst h
          have hlt := matchOpenAt_shrink hmo
          simp only [List.length_drop] at hlt ⊢
          omega
      · rw [if_neg hq] at h; cases h
    · rw [if_neg hn] at h
      rcases hmo : matchOpenAt (s.drop 10) with _ | ⟨cc, rr⟩
      · rw [hmo] at h; cases h
      · rw [hmo] at h
        injection h with h
        subst h
        have hlt := matchOpenAt_shrink hmo
        simp only [List.length_drop] at hlt ⊢
        omega
  · rw [if_neg hp] at h; cases h

/-- Attempt to match one variable entry `@([A-Za-z0-9_\-]+)\s*:\s*([^;]+);`
at the start of `s`.  On success return the captured name, the trimmed value
(`captured(2).trimmed()`), and the remainder after the terminating `;`.
The group `\s*([^;]+);` succeeds exactly when at least one character stands
between the colon and the next semicolon; backtracking of `\s*` makes the
capture equal to that segment with its leading whitespace removed, except
that an all-whitespace segment leaves one whitespace character in the
capture — in both cases the trimmed capture is `trim` of the segment. -/
def matchEntryAt : Str → Option (Str × Str × Str)
  | [] => none
  | c :: rest =>
    if c == '@' then
      let name := rest.takeWhile identChar
      if name = [] then none
      else
        let r3 := (rest.drop name.length).dropWhile isWs
        if pfx [':'] r3 then
          let r4 := r3.drop 1
          let seg := r4.takeWhile (fun d => !(d == ';'))
          if seg = [] then none
          else
            if pfx [';'] (r4.drop seg.length) then
              some (name, trim seg, (r4.drop seg.length).drop 1)
            else none
        else none
    else none

theorem matchEntryAt_shrink : ∀ {s : Str} {n v r : Str},
    matchEntryAt s = some (n, v, r) → r.length < s.length := by
  intro s n v r h
  cases s with
  | nil => cases h
  | cons c rest =>
    rw [matchEntryAt] at h
    simp only [] at h
    by_cases hc : (c == '@') = true
    · rw [if_pos hc] at h
      by_cases hname : rest.takeWhile identChar = []
      · rw [if_pos hname] at h; cases h
      · rw [if_neg hname] at h
        by_cases hcol : pfx [':'] ((rest.drop (rest.takeWhile identChar).length).dropWhile isWs)
            = true
        · rw [if_pos hcol] at h
          by_cases hseg :
              (((rest.drop (rest.takeWhile identChar).length).dropWhile isWs).drop 1).takeWhile
                (fun d => !(d == ';')) = []
          · rw [if_pos hseg] at h; cases h
          · rw [if_neg hseg] at h
            by_cases hsemi : pfx [';']
                ((((rest.drop (rest.takeWhile identChar).length).dropWhile isWs).drop 1).drop
                  ((((rest.drop (rest.takeWhile identChar).length).dropWhile isWs).drop
                      1).takeWhile (fun d => !(d == ';'))).length) = true
            · rw [if_pos hsemi] at h
              simp only [Option.some.injEq, Prod.mk.injEq] at h
              obtain ⟨_, _, rfl⟩ := h
              have l1 : ((rest.drop (rest.takeWhile identChar).length).dropWhile isWs).length
                  ≤ rest.length := by
                have h1 := len_dropWhile_le isWs (rest.drop (rest.takeWhile identChar).length)
                have h2 : (rest.drop (rest.takeWhile identChar).length).length ≤ rest.length := by
                  rw [List.length_drop]; omega
                omega
              have l2 : 1 ≤
                  ((rest.drop (rest.takeWhile identChar).length).dropWhile isWs).length :=
                pfx_length hcol
              have l3 := pfx_length hsemi
              simp only [List.length_cons, List.length_drop] at l3 ⊢
              omega
            · rw [if_neg hsemi] at h; cases h
        · rw [if_neg hcol] at h; cases h
    · rw [if_neg hc] at h; cases h

/-- Fuel-recursive core of the entry-parsing scan. -/
def parseEntriesF : Nat → Str → Vars → Vars
  | 0, _, vars => vars
  | Nat.succ f, s, vars =>
    match s with
    | [] => vars
    | c :: rest =>
      match matchEntryAt (c :: rest) with
      | some nvr => parseEntriesF f nvr.2.2 (varsInsert nvr.1 nvr.2.1 vars)
      | none => parseEntriesF f rest vars

/-- `parse_variables_block`: global scan for entries; a failed attempt resumes
one position later (equivalently at the character after the `@`), a successful
match resumes after its semicolon; later entries overwrite earlier ones. -/
def parseEntries (s : Str) (vars : Vars) : Vars := parseEntriesF (s.length + 1) s vars

theorem parseEntriesF_irrel : ∀ fuel fuel' (s : Str) (vars : Vars), s.length < fuel →
    s.length < fuel' → parseEntriesF fuel s vars = parseEntriesF fuel' s vars := by
  intro fuel
  induction fuel with
  | zero => intro fuel' s vars h; exact absurd h (Nat.not_lt_zero _)
  | succ f ih =>
    intro fuel' s vars h h'
    obtain ⟨g, rfl⟩ : ∃ g, fuel' = g + 1 := ⟨fuel' - 1, by omega⟩
    cases s with
    | nil => rfl
    | cons c rest =>
      simp only [parseEntriesF]
      cases hm : matchEntryAt (c :: rest) with
      | none =>
        simp only [List.length_cons] at h h'
        exact ih g rest vars (by omega) (by omega)
      | some nvr =>
        have := @matchEntryAt_shrink (c :: rest) nvr.1 nvr.2.1 nvr.2.2 (by rw [hm])
        exact ih g nvr.2.2 _ (by omega) (by omega)

theorem parseEntries_nil (vars : Vars) : parseEntries [] vars = vars := rfl

theorem parseEntries_cons_some {c : Char} {rest : Str} {n v r : Str}
    (hm : matchEntryAt (c :: rest) = some (n, v, r)) (vars : Vars) :
    parseEntries (c :: rest) vars = parseEntries r (varsInsert n v vars) := by
  have hsh := matchEntryAt_shrink hm
  have e1 : parseEntriesF ((c :: rest).length + 1) (c :: rest) vars =
      parseEntriesF (c :: rest).length r (varsInsert n v vars) := by
    simp only [parseEntriesF, hm]
  rw [parseEntries, e1, parseEntries]
  exact parseEntriesF_irrel _ _ _ _ (by omega) (by omega)

theorem parseEntries_cons_none {c : Char} {rest : Str}
    (hm : matchEntryAt (c :: rest) = none) (vars : Vars) :
    parseEntries (c :: rest) vars = parseEntries rest vars := by
  have e1 : parseEntriesF ((c :: rest).length + 1) (c :: rest) vars =
      parseEntriesF (c :: rest).length rest vars := by
    simp only [parseEntriesF, hm]
  rw [parseEntries, e1, parseEntries]
  exact parseEntriesF_irrel _ _ _ _ (by simp) (by omega)

/-- Tagged-block content matcher for `extract_variables_block`:
`@Variables\[Name="THEME"\]\s*\{([\s\S]*?)\}` with the theme name escaped into
a literal.  Returns the captured block content. -/
def matchTaggedAt (theme : Str) (s : Str) : Option Str :=
  if pfx (str "@Variables[Name=\"" ++ theme ++ str "\"]") s then
    (matchOpenAt (s.drop (17 + theme.length + 2))).map (fun cr => cr.1)
  else none

/-- Default-block content matcher: `@Variables\s*\{([\s\S]*?)\}`.  A tagged
block never matches here because `[` is neither whitespace nor `{`. -/
def matchDefaultAt (s : Str) : Option Str :=
  if pfx (str "@Variables") s then (matchOpenAt (s.drop 10)).map (fun cr => cr.1)
  else none

/-- Leftmost match of a positional matcher over the whole text. -/
def scanFirst (m : Str → Option Str) : Str → Option Str
  | [] => none
  | c :: rest =>
    match m (c :: rest) with
    | some x => some x
    | none => scanFirst m rest

/-- `StylesheetLoader::extract_variables_block`: try the tagged block when a
theme is requested; when that produces nothing (no match or empty capture),
fall back to the first untagged block; empty when neither matches. -/
def extractVariablesBlock (text theme : Str) : Str :=
  let r1 := if theme = [] then [] else (scanFirst (matchTaggedAt theme) text).getD []
  if r1 = [] then (scanFirst matchDefaultAt text).getD [] else r1

/-- Tag matcher for `parse_available_themes`:
`@Variables\[Name="([^"]+)"\]` (note `+`: an empty quoted tag never matches).
Returns the captured name and the remainder after the `"]`. -/
def matchThemeTagAt (s : Str) : Option (Str × Str) :=
  if pfx (str "@Variables[Name=\"") s then
    let t := s.drop 17
    let name := t.takeWhile (fun d => !(d == '"'))
    if name = [] then none
    else
      if pfx (str "\"]") (t.drop name.length) then
        some (name, (t.drop name.length).drop 2)
      else none
  else none

theorem matchThemeTagAt_shrink : ∀ {s : Str} {n r : Str},
    matchThemeTagAt s = some (n, r) → r.length < s.length := by
  intro s n r h
  rw [matchThemeTagAt] at h
  simp only [] at h
  by_cases hp : pfx (str "@Variables[Name=\"") s = true
  · rw [if_pos hp] at h
    have h17 : 17 ≤ s.length := by
      have := pfx_length hp
      simpa [str] using this
    by_cases hname : (s.drop 17).takeWhile (fun d => !(d == '"')) = []
    · rw [if_pos hname] at h; cases h
    · rw [if_neg hname] at h
      by_cases hq : pfx (str "\"]")
          ((s.drop 17).drop ((s.drop 17).takeWhile (fun d => !(d == '"'))).length) = true
      · rw [if_pos hq] at h
        simp only [Option.some.injEq, Prod.mk.injEq] at h
        obtain ⟨_, rfl⟩ := h
        have l2 : 2 ≤ ((s.drop 17).drop
            ((s.drop 17).takeWhile (fun d => !(d == '"'))).length).length := by
          have := pfx_length hq
          simpa [str] using this
        have hne : 1 ≤ ((s.drop 17).takeWhile (fun d => !(d == '"'))).length := by
          cases hcc : (s.drop 17).takeWhile (fun d => !(d == '"')) with
          | nil => exact absurd hcc hname
          | cons x xs => simp [hcc]
        simp only [List.length_drop] at l2 ⊢
        omega
      · rw [if_neg hq] at h; cases h
  · rw [if_neg hp] at h; cases h

/-- Fuel-recursive core of the tag-collection loop. -/
def tagNamesF : Nat → Str → List Str
  | 0, _ => []
  | Nat.succ f, s =>
    match s with
    | [] => []
    | c :: rest =>
      match matchThemeTagAt (c :: rest) with
      | some nr => nr.1 :: tagNamesF f nr.2
      | none => tagNamesF f rest

/-- The tag-collection loop of `parse_available_themes`: every global match of
the tag pattern, in text order. -/
def tagNames (s : Str) : List Str := tagNamesF (s.length + 1) s

theorem tagNamesF_irrel : ∀ fuel fuel' (s : Str), s.length < fuel →
    s.length < fuel' → tagNamesF fuel s = tagNamesF fuel' s := by
  intro fuel
  induction fuel with
  | zero => intro fuel' s h; exact absurd h (Nat.not_lt_zero _)
  | succ f ih =>
    intro fuel' s h h'
    obtain ⟨g, rfl⟩ : ∃ g, fuel' = g + 1 := ⟨fuel' - 1, by omega⟩
    cases s with
    | nil => rfl
    | cons c rest =>
      simp only [tagNamesF]
      cases hm : matchThemeTagAt (c :: rest) with
      | none =>
        simp only [List.length_cons] at h h'
        exact ih g rest (by omega) (by omega)
      | some nr =>
        have := @matchThemeTagAt_shrink (c :: rest) nr.1 nr.2 (by rw [hm])
        show nr.1 :: tagNamesF f nr.2 = nr.1 :: tagNamesF g nr.2
        rw [ih g nr.2 (by omega) (by omega)]

theorem tagNames_nil : tagNames [] = [] := rfl

theorem tagNames_cons_some {c : Char} {rest : Str} {n r : Str}
    (hm : matchThemeTagAt (c :: rest) = some (n, r)) :
    tagNames (c :: rest) = n :: tagNames r := by
  have hsh := matchThemeTagAt_shrink hm
  have e1 : tagNamesF ((c :: rest).length + 1) (c :: rest) =
      n :: tagNamesF (c :: rest).length r := by
    simp only [tagNamesF, hm]
  rw [tagNames, e1, tagNames]
  rw [tagNamesF_irrel (c :: rest).length (r.length + 1) r (by omega) (by omega)]

theorem tagNames_cons_none {c : Char} {rest : Str}
    (hm : matchThemeTagAt (c :: rest) = none) :
    tagNames (c :: rest) = tagNames rest := by
  have e1 : tagNamesF ((c :: rest).length + 1) (c :: rest) =
      tagNamesF (c :: rest).length rest := by
    simp only [tagNamesF, hm]
  rw [tagNames, e1, tagNames]
  exact tagNamesF_irrel _ _ _ (by simp) (by omega)

/-- Marker for the untagged-default check `@Variables\s*\{` (no closing brace
required). -/
def matchDefaultMarkerAt (s : Str) : Bool :=
  pfx (str "@Variables") s &&
    (match ((s.drop 10).dropWhile isWs) with
     | c :: _ => c == lbrace
     | [] => false)

/-- Whether the default-block marker occurs anywhere in the text. -/
def hasDefaultMarker : Str → Bool
  | [] => false
  | c :: rest => matchDefaultMarkerAt (c :: rest) || hasDefaultMarker rest

/-- Fuel-recursive core of `QStringList::removeDuplicates`. -/
def dedupKeepFirstF : Nat → List Str → List Str
  | 0, l => l
  | Nat.succ _, [] => []
  | Nat.succ f, x :: xs => x :: dedupKeepFirstF f (xs.filter (fun y => !(y == x)))

/-- `QStringList::removeDuplicates`: keep the first occurrence of each string. -/
def dedupKeepFirst (l : List Str) : List Str := dedupKeepFirstF (l.length + 1) l

theorem dedupKeepFirstF_irrel : ∀ fuel fuel' (l : List Str), l.length < fuel →
    l.length < fuel' → dedupKeepFirstF fuel l = dedupKeepFirstF fuel' l := by
  intro fuel
  induction fuel with
  | zero => intro fuel' l h; exact absurd h (Nat.not_lt_zero _)
  | succ f ih =>
    intro fuel' l h h'
    obtain ⟨g, rfl⟩ : ∃ g, fuel' = g + 1 := ⟨fuel' - 1, by omega⟩
    cases l with
    | nil => rfl
    | cons x xs =>
      simp only [dedupKeepFirstF]
      have hfl := List.length_filter_le (fun y => !(y == x)) xs
      simp only [List.length_cons] at h h'
      rw [ih g (xs.filter (fun y => !(y == x))) (by omega) (by omega)]

theorem dedupKeepFirst_nil : dedupKeepFirst [] = [] := rfl

theorem dedupKeepFirst_cons (x : Str) (xs : List Str) :
    dedupKeepFirst (x :: xs) = x :: dedupKeepFirst (xs.filter (fun y => !(y == x))) := by
  have hfl := List.length_filter_le (fun y => !(y == x)) xs
  have e1 : dedupKeepFirstF ((x :: xs).length + 1) (x :: xs) =
      x :: dedupKeepFirstF (x :: xs).length (xs.filter (fun y => !(y == x))) := rfl
  rw [dedupKeepFirst, e1, dedupKeepFirst]
  rw [dedupKeepFirstF_irrel (x :: xs).length ((xs.filter (fun y => !(y == x))).length + 1)
    (xs.filter (fun y => !(y == x))) (by simp only [List.length_cons]; omega) (by omega)]

/-- `StylesheetLoader::parse_available_themes`. -/
def parseAvailableThemes (text : Str) : List Str :=
  dedupKeepFirst (tagNames text ++ (if hasDefaultMarker text then [str "Default"] else []))

/-- Fuel-recursive core of the block-removal scan. -/
def removeBlocksF : Nat → Str → Str
  | 0, s => s
  | Nat.succ f, s =>
    match s with
    | [] => []
    | c :: rest =>
      match matchBlockAt (c :: rest) with
      | some r => removeBlocksF f r
      | none => c :: removeBlocksF f rest

/-- `StylesheetLoader::remove_variables_blocks`: delete every match of the
block pattern, scanning left to right without rescanning spliced seams. -/
def removeBlocks (s : Str) : Str := removeBlocksF (s.length + 1) s

theorem removeBlocksF_irrel : ∀ fuel fuel' (s : Str), s.length < fuel →
    s.length < fuel' → removeBlocksF fuel s = removeBlocksF fuel' s := by
  intro fuel
  induction fuel with
  | zero => intro fuel' s h; exact absurd h (Nat.not_lt_zero _)
  | succ f ih =>
    intro fuel' s h h'
    obtain ⟨g, rfl⟩ : ∃ g, fuel' = g + 1 := ⟨fuel' - 1, by omega⟩
    cases s with
    | nil => rfl
    | cons c rest =>
      simp only [removeBlocksF]
      cases hm : matchBlockAt (c :: rest) with
      | none =>
        simp only [List.length_cons] at h h'
        rw [ih g rest (by omega) (by omega)]
      | some r =>
        have := matchBlockAt_shrink hm
        exact ih g r (by omega) (by omega)

theorem removeBlocks_nil : removeBlocks [] = [] := rfl

theorem removeBlocks_cons_some {c : Char} {rest r : Str}
    (hm : matchBlockAt (c :: rest) = some r) :
    removeBlocks (c :: rest) = removeBlocks r := by
  have hsh := matchBlockAt_shrink hm
  have e1 : removeBlocksF ((c :: rest).length + 1) (c :: rest) =
      removeBlocksF (c :: rest).length r := by
    simp only [removeBlocksF, hm]
  rw [removeBlocks, e1, removeBlocks]
  exact removeBlocksF_irrel _ _ _ (by omega) (by omega)

theorem removeBlocks_cons_none {c : Char} {rest : Str}
    (hm : matchBlockAt (c :: rest) = none) :
    removeBlocks (c :: rest) = c :: removeBlocks rest := by
  have e1 : removeBlocksF ((c :: rest).length + 1) (c :: rest) =
      c :: removeBlocksF (c :: rest).length rest := by
    simp only [removeBlocksF, hm]
  rw [removeBlocks, e1, removeBlocks]
  rw [removeBlocksF_irrel (c :: rest).length (rest.length + 1) rest (by simp) (by omega)]

/-- The mutable state of a `StylesheetLoader` object: raw text, source path,
resolved variable map, enumerated themes, current theme name, the auto-reload
flag, the watcher's path list, and the stylesheet text last handed to
`qApp->setStyleSheet` (the style sink). -/
structure LoaderState where
  raw : Str
  path : Str
  vars : Vars
  themes : List Str
  themeName : Str
  autoReload : Bool
  watched : List Str
  applied : Str
deriving DecidableEq

/-- The freshly constructed loader: every field empty, auto-reload off. -/
def initialState : LoaderState :=
  ⟨[], [], [], [], [], false, [], []⟩

/-- Steps 1–2 of `process_and_apply_stylesheet`: parse the default block into
the cleared map, then overlay the requested theme's block when present. -/
def mergedVars (rawText theme : Str) : Vars :=
  let defaultBlock := extractVariablesBlock rawText []
  let v1 : Vars := if defaultBlock = [] then [] else parseEntries defaultBlock []
  if theme = [] then v1
  else
    let themeBlock := extractVariablesBlock rawText theme
    if themeBlock = [] then v1 else parseEntries themeBlock v1

/-- `StylesheetLoader::process_and_apply_stylesheet`.  `fsW` models
`QFileSystemWatcher::addPath` succeeding for a given path; `fuel` is the proof
fuel threaded into the resolver. -/
def processAndApply (fuel : Nat) (fsW : Str → Bool) (s : LoaderState)
    (rawText theme path : Str) (configureWatcher : Bool) : Bool × LoaderState :=
  if rawText = [] then (false, s)
  else
    let themes := parseAvailableThemes rawText
    let resolved := resolveAll fuel (mergedVars rawText theme)
    let finalText := substituteVariables resolved (removeBlocks rawText)
    (true,
      { raw := rawText
        path := path
        vars := resolved
        themes := themes
        themeName := theme
        autoReload := s.autoReload
        watched :=
          if configureWatcher && s.autoReload && !(path = []) && fsW path then [path] else []
        applied := finalText })

/-- `StylesheetLoader::load_stylesheet`: `fs` models the file system (`none`
when the file cannot be opened). -/
def loadStylesheet (fuel : Nat) (fsW : Str → Bool) (fs : Str → Option Str)
    (s : LoaderState) (filePath theme : Str) : Bool × LoaderState :=
  match fs filePath with
  | some content => processAndApply fuel fsW s content theme filePath true
  | none => (false, s)

/-- `StylesheetLoader::load_stylesheet_from_data`: empty source path, watcher
cleared. -/
def loadFromData (fuel : Nat) (fsW : Str → Bool) (s : LoaderState)
    (text theme : Str) : Bool × LoaderState :=
  processAndApply fuel fsW s text theme [] false

/-- `StylesheetLoader::reload_stylesheet`. -/
def reloadStylesheet (fuel : Nat) (fsW : Str → Bool) (fs : Str → Option Str)
    (s : LoaderState) : Bool × LoaderState :=
  if s.path = [] then (false, s)
  else loadStylesheet fuel fsW fs s s.path s.themeName

/-- `StylesheetLoader::set_theme`. -/
def setTheme (fuel : Nat) (fsW : Str → Bool) (fs : Str → Option Str)
    (s : LoaderState) (theme : Str) : Bool × LoaderState :=
  if theme = [] ∨ theme ∈ s.themes then
    if !(s.raw = []) then loadFromData fuel fsW s s.raw theme
    else if !(s.path = []) then loadStylesheet fuel fsW fs s s.path theme
    else (false, s)
  else (false, s)

/-- `StylesheetLoader::get_current_stylesheet`. -/
def getCurrentStylesheet (s : LoaderState) : Str :=
  substituteVariables s.vars (removeBlocks s.raw)

/-- `StylesheetLoader::enable_auto_reload`: set the flag, clear the watch,
re-arm it when enabled and a path is known; returns whether a watch was
actually armed (`QFileSystemWatcher::addPath`'s result). -/
def enableAutoReload (fsW : Str → Bool) (s : LoaderState) (enabled : Bool) :
    Bool × LoaderState :=
  let cleared : LoaderState :=
    { raw := s.raw, path := s.path, vars := s.vars, themes := s.themes
      themeName := s.themeName, autoReload := enabled, watched := [], applied := s.applied }
  if enabled && !(s.path = []) then
    if fsW s.path then (true, { cleared with watched := [s.path] }) else (false, cleared)
  else (false, cleared)

theorem resolveAll_mono {F f : Nat} (vars : Vars) (hle : F ≤ f)
    (hok : resolveAllOk F vars = true) :
    resolveAll f vars = resolveAll F vars ∧ resolveAllOk f vars = true := by
  rw [resolveAllOk, List.all_eq_true] at hok
  constructor
  · rw [resolveAll, resolveAll]
    apply List.map_congr_left
    intro kv hkv
    have hk := hok kv hkv
    rw [resolveTopOk] at hk
    rw [resolveTop, resolveTop, (resolve_mono F).1 f kv.1 vars [] hle hk]
  · rw [resolveAllOk, List.all_eq_true]
    intro kv hkv
    have hk := hok kv hkv
    rw [resolveTopOk] at hk
    rw [resolveTopOk, (resolve_mono F).1 f kv.1 vars [] hle hk]
    exact hk

theorem processAndApply_mono {F f : Nat} (fsW : Str → Bool) (s : LoaderState)
    (rawText theme path : Str) (cw : Bool) (hle : F ≤ f)
    (hok : resolveAllOk F (mergedVars rawText theme) = true) :
    processAndApply f fsW s rawText theme path cw =
      processAndApply F fsW s rawText theme path cw := by
  rw [processAndApply, processAndApply, (resolveAll_mono _ hle hok).1]

/-- Whether any position of the text matches the variable-block pattern. -/
def hasBlockSpan : Str → Bool
  | [] => false
  | c :: rest => (matchBlockAt (c :: rest)).isSome || hasBlockSpan rest

/-- A file-watcher model on which every `addPath` fails (nothing depends on it
in the data-load scenarios). -/
def noFsW : Str → Bool := fun _ => false

/-- A file-system model with no readable files. -/
def noFs : Str → Option Str := fun _ => none

/-- The spec's chain example: `@A: @B; @B: @C; @C: #010203;`. -/
def chainVars : Vars :=
  [(str "A", str "@B"), (str "B", str "@C"), (str "C", str "#010203")]

/-- The spec's cycle example: `@A: @B; @B: @A;`. -/
def cycleVars : Vars := [(str "A", str "@B"), (str "B", str "@A")]

/-- A diamond: `A`'s value holds two references that share the common
referenced variable `D`. -/
def diamondVars : Vars :=
  [(str "A", str "@B @C"), (str "B", str "@D"), (str "C", str "@D"), (str "D", str "x")]

/-- The spec's longest-match example mapping. -/
def varsC3 : Vars := [(str "Color", str "#111111"), (str "ColorPrimary", str "#222222")]

/-- The spec's theme-precedence document. -/
def docC6 : Str :=
  str "@Variables \x7b @Color: #abc; \x7d @Variables[Name=\"Dark\"] \x7b @Color: #000; \x7d QWidget \x7b color: @Color; \x7d"

/-- A document with a declared theme whose block is empty, plus a default. -/
def docC7 : Str :=
  str "@Variables[Name=\"Empty\"] \x7b\x7d @Variables \x7b @x: 1; \x7d QWidget \x7b \x7d"

/-- Theme-enumeration document: two named themes, one empty-string tag, one
untagged block, one repeated tag. -/
def docC8 : Str :=
  str "@Variables[Name=\"A\"] \x7b @X: 1; \x7d @Variables[Name=\"\"] \x7b @Y: 2; \x7d @Variables[Name=\"B\"] \x7b @Z: 3; \x7d @Variables \x7b @D: 4; \x7d @Variables[Name=\"A\"] \x7b @W: 5; \x7d"

/-- Claim C4: a load given empty input text fails and leaves the entire
document state unchanged — raw text, source path, themes, current theme,
resolved mapping, watcher and applied text all keep their previous values;
this covers both the in-memory loader and a file load whose content is
empty, since both funnel through `process_and_apply_stylesheet`. -/
theorem claim_C4 (fuel : Nat) (fsW : Str → Bool) (fs : Str → Option Str)
    (s : LoaderState) (theme path : Str) (cw : Bool) (hfs : fs path = some []) :
    processAndApply fuel fsW s [] theme path cw = (false, s) ∧
    loadFromData fuel fsW s [] theme = (false, s) ∧
    loadStylesheet fuel fsW fs s path theme = (false, s) := by
  refine ⟨rfl, rfl, ?_⟩
  rw [loadStylesheet, hfs]
  rfl

/-- Claim C4 witness. -/
theorem claim_C4_witness :
    processAndApply 3 noFsW initialState [] (str "Dark") (str "/a.qss") true
      = (false, initialState) ∧
    loadFromData 3 noFsW initialState [] (str "Dark") = (false, initialState) ∧
    loadStylesheet 3 noFsW (fun _ => some []) initialState (str "/a.qss") (str "Dark")
      = (false, initialState) :=
  claim_C4 3 noFsW (fun _ => some []) initialState (str "Dark") (str "/a.qss") true rfl

/-- Claim C5: `set_theme` with a non-empty theme name that is not among the
available themes fails and changes nothing, including the derived final
substituted text. -/
theorem claim_C5 (fuel : Nat) (fsW : Str → Bool) (fs : Str → Option Str)
    (s : LoaderState) (theme : Str) (h1 : theme ≠ []) (h2 : theme ∉ s.themes) :
    setTheme fuel fsW fs s theme = (false, s) ∧
    getCurrentStylesheet (setTheme fuel fsW fs s theme).2 = getCurrentStylesheet s := by
  have hcond : ¬ (theme = [] ∨ theme ∈ s.themes) := by
    rintro (h | h)
    · exact h1 h
    · exact h2 h
  rw [setTheme, if_neg hcond]
  exact ⟨rfl, rfl⟩

/-- Claim C5 witness. -/
theorem claim_C5_witness :
    setTheme 3 noFsW noFs initialState (str "Nope") = (false, initialState) :=
  (claim_C5 3 noFsW noFs initialState (str "Nope") (by decide) (by decide)).1

/-- Claim C10: after any successful load-from-text the stored source path is
empty, so a subsequent `reload_stylesheet` returns `false` without touching
the state, and `enable_auto_reload(true)` returns `false` (no watch armed) —
even when a file path had been loaded before (the state `s` is arbitrary). -/
theorem claim_C10 (fuel fuel2 : Nat) (fsW fsW2 : Str → Bool) (fs : Str → Option Str)
    (s : LoaderState) (text theme : Str) (h : text ≠ []) :
    (loadFromData fuel fsW s text theme).1 = true ∧
    (loadFromData fuel fsW s text theme).2.path = [] ∧
    reloadStylesheet fuel2 fsW2 fs (loadFromData fuel fsW s text theme).2 =
      (false, (loadFromData fuel fsW s text theme).2) ∧
    (enableAutoReload fsW2 (loadFromData fuel fsW s text theme).2 true).1 = false := by
  rw [loadFromData, processAndApply, if_neg h]
  refine ⟨rfl, rfl, ?_, ?_⟩
  · rw [reloadStylesheet, if_pos rfl]
  · rw [enableAutoReload]
    simp

/-- Claim C10 witness: a prior state that had successfully loaded from a file
path, then a data load. -/
theorem claim_C10_witness :
    (loadFromData 3 noFsW
        ⟨str "QWidget", str "/old.qss", [], [], [], true, [str "/old.qss"], str "QWidget"⟩
        (str "QLabel") (str "T")).1 = true ∧
    (loadFromData 3 noFsW
        ⟨str "QWidget", str "/old.qss", [], [], [], true, [str "/old.qss"], str "QWidget"⟩
        (str "QLabel") (str "T")).2.path = [] ∧
    reloadStylesheet 3 noFsW noFs
        (loadFromData 3 noFsW
          ⟨str "QWidget", str "/old.qss", [], [], [], true, [str "/old.qss"], str "QWidget"⟩
          (str "QLabel") (str "T")).2 =
      (false,
        (loadFromData 3 noFsW
          ⟨str "QWidget", str "/old.qss", [], [], [], true, [str "/old.qss"], str "QWidget"⟩
          (str "QLabel") (str "T")).2) ∧
    (enableAutoReload noFsW
        (loadFromData 3 noFsW
          ⟨str "QWidget", str "/old.qss", [], [], [], true, [str "/old.qss"], str "QWidget"⟩
          (str "QLabel") (str "T")).2 true).1 = false :=
  claim_C10 3 3 noFsW noFsW noFs
    ⟨str "QWidget", str "/old.qss", [], [], [], true, [str "/old.qss"], str "QWidget"⟩
    (str "QLabel") (str "T") (by decide)

/-- A completed resolution result (no remaining token) cannot contain an
`@`-reference to any identifier-shaped name. -/
theorem no_token_no_ref : ∀ {r : Str}, findToken r = none → ∀ {k : Str},
    headIdent k = true → containsSub ('@' :: k) r = false := by
  intro r
  induction r with
  | nil => intro _ k _; rfl
  | cons c rest ih =>
    intro h k hk
    rw [findToken] at h
    split at h
    · cases h
    · rename_i hc
      rw [containsSub, ih h hk, Bool.or_false]
      cases hb : pfx ('@' :: k) (c :: rest)
      · rfl
      · exfalso
        rw [pfx, Bool.and_eq_true, beq_iff_eq] at hb
        obtain ⟨hc1, hk2⟩ := hb
        apply hc
        rw [Bool.and_eq_true]
        constructor
        · rw [← hc1]; rfl
        · cases k with
          | nil => rw [headIdent] at hk; cases hk
          | cons d ks =>
            cases rest with
            | nil => rw [pfx] at hk2; cases hk2
            | cons e es =>
              rw [pfx, Bool.and_eq_true, beq_iff_eq] at hk2
              rw [headIdent, ← hk2.1]
              rw [headIdent] at hk
              exact hk

/-- Claim C2: resolution terminates for every raw mapping (with a stable
result past a sufficient fuel bound); a reference that re-enters a name
already in the seen-set of the current top-level resolution yields the empty
string; in the cycle `@A: @B; @B: @A;` both names resolve to the empty
string; and a completed resolved value contains no `@identifier` token at
all, in particular no `@`-reference to any name of the raw mapping's key
set. -/
theorem claim_C2 :
    (∀ (vars : Vars) (name : Str), ∃ F r s',
        (∀ f, F ≤ f → resolveVar f name vars [] = (r, s', true)) ∧ findToken r = none ∧
        ∀ k, k ∈ vars.map Prod.fst → headIdent k = true →
          containsSub ('@' :: k) r = false) ∧
    (∀ (vars : Vars) (seen : List Str) (name : Str) (f : Nat), name ∈ seen →
        resolveVar (f + 1) name vars seen = ([], seen, true)) ∧
    (∀ f, 16 ≤ f →
        resolveTop f (str "A") cycleVars = [] ∧ resolveTop f (str "B") cycleVars = []) := by
  refine ⟨?_, ?_, ?_⟩
  · intro vars name
    obtain ⟨F, r, s', hstab, hr⟩ := resolveVar_term vars name
    exact ⟨F, r, s', hstab, hr, fun k _ hk => no_token_no_ref hr hk⟩
  · intro vars seen name f h
    exact resolveVar_succ_mem vars f h
  · intro f hf
    have m1 := (resolve_mono 16).1 f (str "A") cycleVars [] hf (by decide)
    have m2 := (resolve_mono 16).1 f (str "B") cycleVars [] hf (by decide)
    constructor
    · rw [resolveTop, m1]; decide
    · rw [resolveTop, m2]; decide

/-- Claim C2 witness: the re-entrant case at a concrete input, and the
concrete cycle. -/
theorem claim_C2_witness :
    resolveVar 4 (str "X") [] [str "X"] = ([], [str "X"], true) ∧
    resolveTop 16 (str "A") cycleVars = [] ∧
    resolveTop 16 (str "B") cycleVars = [] :=
  ⟨claim_C2.2.1 [] [str "X"] (str "X") 3 (by decide),
   (claim_C2.2.2 16 le_rfl).1, (claim_C2.2.2 16 le_rfl).2⟩

/-- Claim C1 counterexample: in the acyclic mapping
`A = "@B @C"`, `B = "@D"`, `C = "@D"`, `D = "x"` the claim predicts that `A`
resolves to its raw value with `@B` and `@C` each replaced by the referenced
variable's fully resolved value (`"x"` for both, giving `"x x"`), but the
code resolves `A` to `"x "`: the seen-set is shared across sibling
resolutions, so inside `A`'s resolution the second reference to the common
variable `D` yields the empty string. -/
theorem claim_C1_counterexample :
    resolveTopOk 16 (str "A") diamondVars = true ∧
    resolveTopOk 16 (str "B") diamondVars = true ∧
    resolveTopOk 16 (str "C") diamondVars = true ∧
    resolveTop 16 (str "B") diamondVars = str "x" ∧
    resolveTop 16 (str "C") diamondVars = str "x" ∧
    replaceAll (str "@C") (resolveTop 16 (str "C") diamondVars)
        (replaceAll (str "@B") (resolveTop 16 (str "B") diamondVars) (str "@B @C"))
      = str "x x" ∧
    resolveTop 16 (str "A") diamondVars = str "x " ∧
    ¬ resolveTop 16 (str "A") diamondVars = str "x x" := by
  decide

/-- Claim C1 as amended: for chain-shaped references the collapse holds as
specified — `@A: @B; @B: @C; @C: #010203;` resolves `A`, `B` and `C` all to
`#010203` — but when two references inside one value share a common
referenced variable, the shared variable's second resolution within the same
top-level call yields the empty string, so `A = "@B @C"` over the diamond
mapping resolves to `"x "` while `C` alone resolves to `"x"`. -/
theorem claim_C1_amended : ∀ f, 16 ≤ f →
    resolveTop f (str "A") chainVars = str "#010203" ∧
    resolveTop f (str "B") chainVars = str "#010203" ∧
    resolveTop f (str "C") chainVars = str "#010203" ∧
    resolveTop f (str "A") diamondVars = str "x " ∧
    resolveTop f (str "C") diamondVars = str "x" := by
  intro f hf
  have m1 := (resolve_mono 16).1 f (str "A") chainVars [] hf (by decide)
  have m2 := (resolve_mono 16).1 f (str "B") chainVars [] hf (by decide)
  have m3 := (resolve_mono 16).1 f (str "C") chainVars [] hf (by decide)
  have m4 := (resolve_mono 16).1 f (str "A") diamondVars [] hf (by decide)
  have m5 := (resolve_mono 16).1 f (str "C") diamondVars [] hf (by decide)
  refine ⟨?_, ?_, ?_, ?_, ?_⟩
  · rw [resolveTop, m1]; decide
  · rw [resolveTop, m2]; decide
  · rw [resolveTop, m3]; decide
  · rw [resolveTop, m4]; decide
  · rw [resolveTop, m5]; decide

/-- Claim C1 (amended) witness at the bound fuel. -/
theorem claim_C1_witness :
    resolveTop 16 (str "A") chainVars = str "#010203" ∧
    resolveTop 16 (str "B") chainVars = str "#010203" ∧
    resolveTop 16 (str "C") chainVars = str "#010203" ∧
    resolveTop 16 (str "A") diamondVars = str "x " ∧
    resolveTop 16 (str "C") diamondVars = str "x" :=
  claim_C1_amended 16 le_rfl

/-- Claim C6: theme entries overlay default entries.  For the document with a
default block `@Color: #abc;`, a `"Dark"` block `@Color: #000;` and a body
using `@Color`, loading with theme `"Dark"` yields `#000` in the final text,
while loading with the empty theme or with an absent theme (`"Light"`) yields
`#abc`; within a single block a later entry with the same name overwrites an
earlier one. -/
theorem claim_C6 : ∀ f, 16 ≤ f →
    (processAndApply f noFsW initialState docC6 (str "Dark") [] false).2.applied
      = str "  QWidget \x7b color: #000; \x7d" ∧
    (processAndApply f noFsW initialState docC6 [] [] false).2.applied
      = str "  QWidget \x7b color: #abc; \x7d" ∧
    (processAndApply f noFsW initialState docC6 (str "Light") [] false).2.applied
      = str "  QWidget \x7b color: #abc; \x7d" ∧
    parseEntries (str "@X: 1; @X: 2;") [] = [(str "X", str "2")] := by
  intro f hf
  rw [processAndApply_mono noFsW initialState docC6 (str "Dark") [] false hf (by decide)]
  rw [processAndApply_mono noFsW initialState docC6 [] [] false hf (by decide)]
  rw [processAndApply_mono noFsW initialState docC6 (str "Light") [] false hf (by decide)]
  refine ⟨by decide, by decide, by decide, by decide⟩

/-- Claim C6 witness at the bound fuel. -/
theorem claim_C6_witness :
    (processAndApply 16 noFsW initialState docC6 (str "Dark") [] false).2.applied
      = str "  QWidget \x7b color: #000; \x7d" ∧
    (processAndApply 16 noFsW initialState docC6 [] [] false).2.applied
      = str "  QWidget \x7b color: #abc; \x7d" ∧
    (processAndApply 16 noFsW initialState docC6 (str "Light") [] false).2.applied
      = str "  QWidget \x7b color: #abc; \x7d" ∧
    parseEntries (str "@X: 1; @X: 2;") [] = [(str "X", str "2")] :=
  claim_C6 16 le_rfl

/-- Claim C7: block extraction returns the tagged block's content when the
theme is non-empty and that content is non-empty; otherwise (empty theme, no
tagged match, or an empty tagged capture — including a declared theme whose
block is empty) it returns the first untagged block's content, or the empty
string when none exists; an unclosed block body yields empty content rather
than an error. -/
theorem claim_C7 :
    (∀ (text theme c : Str), theme ≠ [] → scanFirst (matchTaggedAt theme) text = some c →
        c ≠ [] → extractVariablesBlock text theme = c) ∧
    (∀ (text theme : Str),
        theme = [] ∨ scanFirst (matchTaggedAt theme) text = none ∨
          scanFirst (matchTaggedAt theme) text = some [] →
        extractVariablesBlock text theme = (scanFirst matchDefaultAt text).getD []) ∧
    extractVariablesBlock docC7 (str "Empty") = str " @x: 1; " ∧
    extractVariablesBlock docC7 [] = str " @x: 1; " ∧
    extractVariablesBlock (str "@Variables \x7b @a: b;") [] = [] := by
  refine ⟨?_, ?_, by decide, by decide, by decide⟩
  · intro text theme c h1 h2 h3
    rw [extractVariablesBlock]
    simp only [if_neg h1, h2, Option.getD_some]
    rw [if_neg h3]
  · intro text theme h
    rw [extractVariablesBlock]
    rcases h with h | h | h
    · simp [h]
    · simp only [h]
      by_cases ht : theme = []
      · simp [ht]
      · simp [ht]
    · simp only [h]
      by_cases ht : theme = []
      · simp [ht]
      · simp [ht]

/-- Claim C7 witness: the tagged branch exercised on the theme-precedence
document. -/
theorem claim_C7_witness :
    extractVariablesBlock docC6 (str "Dark") = str " @Color: #000; " ∧
    extractVariablesBlock docC7 (str "Empty")
      = (scanFirst matchDefaultAt docC7).getD [] :=
  ⟨claim_C7.1 docC6 (str "Dark") (str " @Color: #000; ") (by decide) (by decide) (by decide),
   claim_C7.2.1 docC7 (str "Empty") (Or.inr (Or.inr (by decide)))⟩

theorem identChar_at_false : identChar '@' = false := rfl

/-- A text of identifier characters only is never touched by one replacement
pass (no `'@'` can occur in it). -/
theorem replaceTokens_ident_keep (k v : Str) : ∀ u : Str, (∀ c ∈ u, identChar c = true) →
    replaceTokens k v u = u := by
  intro u
  induction u with
  | nil => intro _; rfl
  | cons c rest ih =>
    intro h
    rw [replaceTokens_cons]
    have hc : (c == '@') = false := by
      have hid := h c (List.mem_cons_self c rest)
      cases hb : (c == '@')
      · rfl
      · rw [beq_iff_eq] at hb
        rw [hb] at hid
        cases hid
    rw [hc]
    simp only [Bool.false_and, Bool.false_eq_true, if_false]
    rw [ih (fun d hd => h d (List.mem_cons_of_mem c hd))]

/-- A whole token `@t` whose identifier is not the given key is never
replaced by that key's pass: either the key is not a prefix of `t`, or it is
a proper prefix and the lookahead boundary fails on the following identifier
character. -/
theorem replaceTokens_at_ident (k v t : Str) (hne : t ≠ [])
    (hid : ∀ c ∈ t, identChar c = true) (hkt : k ≠ t) :
    replaceTokens k v ('@' :: t) = '@' :: t := by
  rw [replaceTokens_cons]
  have hcond : (('@' == '@') && pfx k t && boundaryOk (t.drop k.length)) = false := by
    by_cases hp : pfx k t = true
    · obtain ⟨u, hu⟩ := pfx_iff_append.mp hp
      have hdrop : t.drop k.length = u := by rw [hu]; exact List.drop_left _ _
      cases u with
      | nil =>
        exfalso
        apply hkt
        rw [hu, List.append_nil]
      | cons d ds =>
        have hd : identChar d = true := by
          apply hid
          rw [hu]
          exact List.mem_append_right _ (List.mem_cons_self d ds)
        rw [hdrop, hp]
        simp [boundaryOk, hd]
    · have hp' : pfx k t = false := by
        cases hb : pfx k t
        · rfl
        · exact absurd hb hp
      rw [hp']
      simp
  rw [hcond]
  simp only [Bool.false_eq_true, if_false]
  rw [replaceTokens_ident_keep k v t hid]

theorem mem_insertLenDesc {a x : Str} : ∀ {l : List Str},
    a ∈ insertLenDesc x l ↔ a = x ∨ a ∈ l := by
  intro l
  induction l with
  | nil => simp [insertLenDesc]
  | cons y ys ih =>
    rw [insertLenDesc]
    split
    · simp
    · simp only [List.mem_cons, ih]
      tauto

theorem mem_sortLenDesc {a : Str} : ∀ {l : List Str}, a ∈ sortLenDesc l ↔ a ∈ l := by
  intro l
  induction l with
  | nil => simp [sortLenDesc]
  | cons y ys ih =>
    rw [sortLenDesc, mem_insertLenDesc]
    simp only [List.mem_cons, ih]

theorem lookupVar_none_not_mem {t : Str} : ∀ {vars : Vars}, lookupVar t vars = none →
    t ∉ vars.map Prod.fst := by
  intro vars
  induction vars with
  | nil => intro _ h; cases h
  | cons kv rest ih =>
    intro h hmem
    rw [lookupVar] at h
    split at h
    · cases h
    · rename_i hne
      rcases List.mem_cons.mp hmem with h1 | h1
      · exact hne h1
      · exact ih h h1

/-- Claim C3: substitution replaces `@name` tokens in descending length order
of the names and only on whole-token matches, so `@ColorPrimary` becomes
`#222222` (never `#111111` followed by `Primary`); and any `@identifier`
token with no entry in the mapping is left unchanged. -/
theorem claim_C3 :
    (∀ (vars : Vars) (t : Str), t ≠ [] → (∀ c ∈ t, identChar c = true) →
        lookupVar t vars = none → substituteVariables vars ('@' :: t) = '@' :: t) ∧
    substituteVariables varsC3 (str "@ColorPrimary") = str "#222222" ∧
    sortLenDesc (varsC3.map Prod.fst) = [str "ColorPrimary", str "Color"] := by
  refine ⟨?_, by decide, by decide⟩
  intro vars t hne hid hlk
  have hnot : t ∉ vars.map Prod.fst := lookupVar_none_not_mem hlk
  rw [substituteVariables]
  have hgen : ∀ ks : List Str, (∀ k ∈ ks, k ≠ t) →
      ks.foldl (fun acc k => replaceTokens k ((lookupVar k vars).getD []) acc) ('@' :: t)
        = '@' :: t := by
    intro ks
    induction ks with
    | nil => intro _; rfl
    | cons k kr ih =>
      intro hk
      rw [List.foldl_cons,
        replaceTokens_at_ident k _ t hne hid (hk k (List.mem_cons_self k kr))]
      exact ih (fun x hx => hk x (List.mem_cons_of_mem k hx))
  apply hgen
  intro k hk hkt
  subst hkt
  exact hnot (mem_sortLenDesc.mp hk)

/-- Claim C3 witness: an unknown token is preserved on a concrete text, and
the longest-match example. -/
theorem claim_C3_witness :
    substituteVariables varsC3 ('@' :: str "Unknown") = '@' :: str "Unknown" ∧
    substituteVariables varsC3 (str "@ColorPrimary") = str "#222222" :=
  ⟨claim_C3.1 varsC3 (str "Unknown") (by decide) (by decide) (by decide),
   claim_C3.2.1⟩

theorem containsSub_of_pfx {p s : Str} (h : pfx p s = true) : containsSub p s = true := by
  cases s with
  | nil => exact h
  | cons c rest => rw [containsSub, h, Bool.true_or]

theorem containsSub_cons {p : Str} {c : Char} {rest : Str}
    (h : containsSub p rest = true) : containsSub p (c :: rest) = true := by
  rw [containsSub, h, Bool.or_true]

theorem containsSub_append_right {p a r : Str} (h : containsSub p r = true) :
    containsSub p (a ++ r) = true := by
  rw [containsSub_iff] at h ⊢
  obtain ⟨l, rr, rfl⟩ := h
  exact ⟨a ++ l, rr, by simp⟩

theorem mem_takeWhileP {p : Char → Bool} : ∀ {l : Str} {c : Char},
    c ∈ l.takeWhile p → p c = true := by
  intro l
  induction l with
  | nil => intro c h; cases h
  | cons x xs ih =>
    intro c h
    rw [List.takeWhile] at h
    split at h
    · rename_i hx
      rcases List.mem_cons.mp h with h1 | h1
      · rw [h1]; exact hx
      · exact ih h1
    · cases h

theorem mem_dedupKeepFirst : ∀ (n : Nat) (l : List Str), l.length ≤ n →
    ∀ a, a ∈ dedupKeepFirst l ↔ a ∈ l := by
  intro n
  induction n with
  | zero =>
    intro l hl a
    have : l = [] := List.length_eq_zero.mp (Nat.le_zero.mp hl)
    subst this
    rfl
  | succ n ih =>
    intro l hl a
    cases l with
    | nil => rfl
    | cons x xs =>
      rw [dedupKeepFirst_cons]
      have hfl := List.length_filter_le (fun y => !(y == x)) xs
      simp only [List.length_cons] at hl
      rw [List.mem_cons, List.mem_cons, ih _ (by omega) a]
      constructor
      · rintro (h | h)
        · exact Or.inl h
        · exact Or.inr (List.mem_of_mem_filter h)
      · rintro (h | h)
        · exact Or.inl h
        · by_cases hax : a = x
          · exact Or.inl hax
          · refine Or.inr (List.mem_filter.mpr ⟨h, ?_⟩)
            simpa using hax

theorem nodup_dedupKeepFirst : ∀ (n : Nat) (l : List Str), l.length ≤ n →
    (dedupKeepFirst l).Nodup := by
  intro n
  induction n with
  | zero =>
    intro l hl
    have : l = [] := List.length_eq_zero.mp (Nat.le_zero.mp hl)
    subst this
    exact List.nodup_nil
  | succ n ih =>
    intro l hl
    cases l with
    | nil => exact List.nodup_nil
    | cons x xs =>
      rw [dedupKeepFirst_cons]
      have hfl := List.length_filter_le (fun y => !(y == x)) xs
      simp only [List.length_cons] at hl
      refine List.Nodup.cons ?_ (ih _ (by omega))
      intro hmem
      have h1 := (mem_dedupKeepFirst n _ (by omega) x).mp hmem
      have h2 := (List.mem_filter.mp h1).2
      simp at h2

theorem drop_length_takeWhile (p : Char → Bool) : ∀ l : Str,
    l.drop (l.takeWhile p).length = l.dropWhile p := by
  intro l
  induction l with
  | nil => rfl
  | cons c rest ih =>
    rw [List.takeWhile, List.dropWhile]
    split
    · simpa using ih
    · simp

theorem matchThemeTagAt_spec {s n r : Str} (h : matchThemeTagAt s = some (n, r)) :
    n ≠ [] ∧ (∀ c ∈ n, ¬ c = '"') ∧
      s = str "@Variables[Name=\"" ++ n ++ str "\"]" ++ r := by
  rw [matchThemeTagAt] at h
  simp only [] at h
  by_cases hp : pfx (str "@Variables[Name=\"") s = true
  · rw [if_pos hp] at h
    obtain ⟨u, hu⟩ := pfx_iff_append.mp hp
    have hdrop : s.drop 17 = u := by
      rw [hu]
      have : (str "@Variables[Name=\"").length = 17 := rfl
      rw [← this]
      exact List.drop_left _ _
    rw [hdrop] at h
    by_cases hn : u.takeWhile (fun d => !(d == '"')) = []
    · rw [if_pos hn] at h; cases h
    · rw [if_neg hn] at h
      by_cases hq : pfx (str "\"]") (u.drop (u.takeWhile (fun d => !(d == '"'))).length) = true
      · rw [if_pos hq] at h
        simp only [Option.some.injEq, Prod.mk.injEq] at h
        obtain ⟨hn1, hr1⟩ := h
        obtain ⟨w, hw⟩ := pfx_iff_append.mp hq
        have hsplit : u.takeWhile (fun d => !(d == '"')) ++
            u.drop (u.takeWhile (fun d => !(d == '"'))).length = u := by
          rw [drop_length_takeWhile]
          exact List.takeWhile_append_dropWhile _ _
        have hw2 : ((str "\"]" ++ w).drop 2) = w := by
          have h2 : (str "\"]").length = 2 := rfl
          rw [← h2]
          exact List.drop_left _ _
        have hu2 : u = n ++ (str "\"]" ++ w) := by
          rw [← hn1, ← hw]
          exact hsplit.symm
        have hr2 : r = w := by rw [← hr1, hw, hw2]
        refine ⟨by rw [← hn1]; exact hn, ?_, ?_⟩
        · intro c hc
          rw [← hn1] at hc
          have := mem_takeWhileP hc
          simpa using this
        · rw [hu, hu2, hr2]
          simp [List.append_assoc]
      · rw [if_neg hq] at h; cases h
  · rw [if_neg hp] at h; cases h

theorem tagNames_sound : ∀ (m : Nat) (s : Str), s.length ≤ m → ∀ n, n ∈ tagNames s →
    n ≠ [] ∧ (∀ c ∈ n, ¬ c = '"') ∧
      containsSub (str "@Variables[Name=\"" ++ n ++ str "\"]") s = true := by
  intro m
  induction m with
  | zero =>
    intro s hs n hn
    have : s = [] := List.length_eq_zero.mp (Nat.le_zero.mp hs)
    subst this
    rw [tagNames_nil] at hn
    cases hn
  | succ m ih =>
    intro s hs n hn
    cases s with
    | nil => rw [tagNames_nil] at hn; cases hn
    | cons c rest =>
      cases hm : matchThemeTagAt (c :: rest) with
      | some nr =>
        obtain ⟨n1, r1⟩ := nr
        rw [tagNames_cons_some hm] at hn
        obtain ⟨hne, hqf, heq⟩ := matchThemeTagAt_spec hm
        rcases List.mem_cons.mp hn with h1 | h1
        · subst h1
          refine ⟨hne, hqf, ?_⟩
          rw [heq]
          apply containsSub_of_pfx
          rw [pfx_iff_append]
          exact ⟨r1, by simp [List.append_assoc]⟩
        · have hshr := matchThemeTagAt_shrink hm
          simp only [List.length_cons] at hs hshr
          obtain ⟨h2, h3, h4⟩ := ih r1 (by omega) n h1
          refine ⟨h2, h3, ?_⟩
          rw [heq]
          exact containsSub_append_right h4
      | none =>
        rw [tagNames_cons_none hm] at hn
        simp only [List.length_cons] at hs
        obtain ⟨h2, h3, h4⟩ := ih rest (by omega) n hn
        exact ⟨h2, h3, containsSub_cons h4⟩

/-- Claim C8: theme enumeration returns a duplicate-free collection whose
members are exactly the tag names found by the non-empty-tag pattern (each a
non-empty string without a quote character, whose full tag pattern occurs
literally in the text) together with the literal name `"Default"` exactly
when the untagged-block marker occurs; on the concrete document the result is
`["A", "B", "Default"]` with the empty-string tag ignored and the repeated
tag deduplicated. -/
theorem claim_C8 :
    (∀ text : Str, (parseAvailableThemes text).Nodup) ∧
    (∀ (text n : Str), n ∈ parseAvailableThemes text ↔
        n ∈ tagNames text ∨ (n = str "Default" ∧ hasDefaultMarker text = true)) ∧
    (∀ (text n : Str), n ∈ tagNames text → n ≠ [] ∧ (∀ c ∈ n, ¬ c = '"') ∧
        containsSub (str "@Variables[Name=\"" ++ n ++ str "\"]") text = true) ∧
    parseAvailableThemes docC8 = [str "A", str "B", str "Default"] := by
  refine ⟨?_, ?_, ?_, by decide⟩
  · intro text
    exact nodup_dedupKeepFirst _ _ le_rfl
  · intro text n
    rw [parseAvailableThemes, mem_dedupKeepFirst _ _ le_rfl, List.mem_append]
    constructor
    · rintro (h | h)
      · exact Or.inl h
      · right
        by_cases hd : hasDefaultMarker text = true
        · rw [if_pos hd] at h
          simp only [List.mem_singleton] at h
          exact ⟨h, hd⟩
        · rw [if_neg hd] at h
          cases h
    · rintro (h | ⟨h1, h2⟩)
      · exact Or.inl h
      · right
        rw [if_pos h2, h1]
        exact List.mem_singleton_self _
  · intro text n hn
    exact tagNames_sound text.length text le_rfl n hn

/-- Claim C8 witness: the soundness clause applied to a concrete enumerated
name, and the membership characterisation at a concrete name. -/
theorem claim_C8_witness :
    (str "A" ≠ [] ∧ (∀ c ∈ str "A", ¬ c = '"') ∧
      containsSub (str "@Variables[Name=\"" ++ str "A" ++ str "\"]") docC8 = true) ∧
    (str "Default" ∈ parseAvailableThemes docC8 ↔
      str "Default" ∈ tagNames docC8 ∨
        (str "Default" = str "Default" ∧ hasDefaultMarker docC8 = true)) :=
  ⟨claim_C8.2.2.1 docC8 (str "A") (by decide), claim_C8.2.1 docC8 (str "Default")⟩

/-- A structured well-formed document per the input grammar: free stylesheet
text interleaved with untagged and tagged variable blocks. -/
inductive DocItem where
  | plainText (s : Str)
  | defaultBlock (content : Str)
  | themeBlock (tag content : Str)

/-- Render one item back to concrete document text. -/
def renderItem : DocItem → Str
  | DocItem.plainText s => s
  | DocItem.defaultBlock c => str "@Variables " ++ [lbrace] ++ c ++ [rbrace]
  | DocItem.themeBlock tag c =>
      str "@Variables[Name=\"" ++ tag ++ str "\"] " ++ [lbrace] ++ c ++ [rbrace]

/-- Render a whole document. -/
def renderDoc : List DocItem → Str
  | [] => []
  | i :: is => renderItem i ++ renderDoc is

/-- The concatenation of the document's free-text segments — what block
stripping should leave behind. -/
def plainParts : List DocItem → Str
  | [] => []
  | DocItem.plainText s :: is => s ++ plainParts is
  | DocItem.defaultBlock _ :: is => plainParts is
  | DocItem.themeBlock _ _ :: is => plainParts is

/-- Well-formedness of one item: block bodies contain no closing brace (the
grammar's values stop at `;` and the block body at the first `\x7d`), and
theme tags contain no quote. -/
def ItemWf : DocItem → Prop
  | DocItem.plainText _ => True
  | DocItem.defaultBlock c => rbrace ∉ c
  | DocItem.themeBlock tag c => rbrace ∉ c ∧ '"' ∉ tag

theorem containsSub_append_left {p a b : Str} (h : containsSub p a = true) :
    containsSub p (a ++ b) = true := by
  rw [containsSub_iff] at h ⊢
  obtain ⟨l, rr, rfl⟩ := h
  exact ⟨l, rr ++ b, by simp⟩

theorem containsSub_tail {p : Str} {c : Char} {rest : Str}
    (h : containsSub p (c :: rest) = false) : containsSub p rest = false := by
  rw [containsSub, Bool.or_eq_false_iff] at h
  exact h.2

theorem pfx_append_cancel (q : Str) : ∀ (b s : Str), pfx (q ++ b) (q ++ s) = pfx b s := by
  induction q with
  | nil => intro b s; rfl
  | cons x xs ih =>
    intro b s
    rw [List.cons_append, List.cons_append, pfx, ih]
    simp

theorem pfx_extend {b p : Str} (h : pfx b p = true) (R : Str) : pfx b (p ++ R) = true := by
  rw [pfx_iff_append] at h ⊢
  obtain ⟨t, rfl⟩ := h
  exact ⟨t ++ R, by simp⟩

theorem pfx_iff_take {p s : Str} :
    pfx p s = true ↔ p.length ≤ s.length ∧ s.take p.length = p := by
  rw [pfx_iff_append]
  constructor
  · rintro ⟨t, rfl⟩
    exact ⟨by simp, List.take_left _ _⟩
  · rintro ⟨hl, hts⟩
    refine ⟨s.drop p.length, ?_⟩
    conv_lhs => rw [← List.take_append_drop p.length s, hts]

/-- Splitting a prefix of an append: either the pattern fits inside the first
part, or the first part is a proper prefix of the pattern and the pattern's
remainder is a prefix of the second part. -/
theorem pfx_of_append {pt q R : Str} (h : pfx pt (q ++ R) = true) :
    (pt.length ≤ q.length ∧ pfx pt q = true) ∨
    (q.length < pt.length ∧ pt = q ++ pt.drop q.length ∧
      pfx (pt.drop q.length) R = true) := by
  obtain ⟨t, ht⟩ := pfx_iff_append.mp h
  by_cases hle : pt.length ≤ q.length
  · left
    refine ⟨hle, ?_⟩
    have h1 : (q ++ R).take pt.length = q.take pt.length := by
      rw [List.take_append_eq_append_take]
      have h0 : pt.length - q.length = 0 := by omega
      rw [h0, List.take_zero, List.append_nil]
    have h2 : (pt ++ t).take pt.length = pt := List.take_left _ _
    rw [ht, h2] at h1
    exact pfx_iff_take.mpr ⟨hle, h1.symm⟩
  · right
    have hlt : q.length < pt.length := by omega
    have h1 : (q ++ R).take q.length = q := List.take_left _ _
    have h2 : (pt ++ t).take q.length = pt.take q.length := by
      rw [List.take_append_eq_append_take]
      have h0 : q.length - pt.length = 0 := by omega
      rw [h0, List.take_zero, List.append_nil]
    rw [ht, h2] at h1
    have h3 : (q ++ R).drop q.length = R := List.drop_left _ _
    have h4 : (pt ++ t).drop q.length = pt.drop q.length ++ t := by
      rw [List.drop_append_eq_append_drop]
      have h0 : q.length - pt.length = 0 := by omega
      rw [h0, List.drop_zero]
    rw [ht, h4] at h3
    refine ⟨hlt, ?_, ?_⟩
    · conv_lhs => rw [← List.take_append_drop q.length pt, h1]
    · rw [pfx_iff_append]
      exact ⟨t, h3.symm⟩

theorem pfx_cons_head {x : Char} {xs : Str} {y : Char} {t : Str}
    (h : pfx (x :: xs) (y :: t) = true) : x = y := by
  rw [pfx, Bool.and_eq_true, beq_iff_eq] at h
  exact h.1

/-- A nonempty prefix of the rendered document that contains no `'@'` is a
prefix of the concatenated free-text parts: it cannot reach into a block,
because every rendered block starts with `'@'`. -/
theorem pfx_render_plain : ∀ (items : List DocItem) (b : Str), b ≠ [] → '@' ∉ b →
    pfx b (renderDoc items) = true → pfx b (plainParts items) = true := by
  intro items
  induction items with
  | nil =>
    intro b hne hat h
    cases b with
    | nil => exact absurd rfl hne
    | cons x xs =>
      rw [renderDoc] at h
      simp [pfx] at h
  | cons item rest ih =>
    intro b hne hat h
    cases item with
    | plainText s =>
      rw [renderDoc, renderItem] at h
      rw [plainParts]
      rcases pfx_of_append h with ⟨hle, hp⟩ | ⟨hlt, hsplit, hp⟩
      · exact pfx_extend hp _
      · by_cases hb : b.drop s.length = []
        · rw [hsplit, hb, List.append_nil]
          rw [pfx_iff_append]
          exact ⟨plainParts rest, rfl⟩
        · have hat2 : '@' ∉ b.drop s.length := fun hx => hat (List.mem_of_mem_drop hx)
          have hpp := ih _ hb hat2 hp
          rw [hsplit, pfx_append_cancel]
          exact hpp
    | defaultBlock c =>
      exfalso
      cases b with
      | nil => exact hne rfl
      | cons x xs =>
        have he : renderDoc (DocItem.defaultBlock c :: rest) =
            '@' :: (str "Variables " ++ [lbrace] ++ c ++ [rbrace] ++ renderDoc rest) := rfl
        rw [he] at h
        exact hat (pfx_cons_head h ▸ List.mem_cons_self x xs)
    | themeBlock tag c =>
      exfalso
      cases b with
      | nil => exact hne rfl
      | cons x xs =>
        have he : renderDoc (DocItem.themeBlock tag c :: rest) =
            '@' :: (str "Variables[Name=\"" ++ tag ++ str "\"] " ++ [lbrace] ++ c ++ [rbrace]
              ++ renderDoc rest) := rfl
        rw [he] at h
        exact hat (pfx_cons_head h ▸ List.mem_cons_self x xs)

/-- No occurrence of `@Variables` among the free-text parts means the block
pattern cannot match at any position strictly inside the leading free text. -/
theorem no_pat_at_seam (q : Str) (items : List DocItem) (hq : q ≠ [])
    (h : containsSub (str "@Variables") (q ++ plainParts items) = false) :
    pfx (str "@Variables") (q ++ renderDoc items) = false := by
  cases hb : pfx (str "@Variables") (q ++ renderDoc items) with
  | false => rfl
  | true =>
    exfalso
    rcases pfx_of_append hb with ⟨hle, hp⟩ | ⟨hlt, hsplit, hp⟩
    · have h1 := @containsSub_append_left (str "@Variables") q (plainParts items)
        (containsSub_of_pfx hp)
      cases h1.symm.trans h
    · have h10 : (str "@Variables").length = 10 := rfl
      have hq1 : 1 ≤ q.length := by
        cases q with
        | nil => exact absurd rfl hq
        | cons _ _ => simp
      have hbne : (str "@Variables").drop q.length ≠ [] := by
        intro hx
        have hlen := congrArg List.length hx
        rw [List.length_drop, h10] at hlen
        rw [h10] at hlt
        simp at hlen
        omega
      have hat : '@' ∉ (str "@Variables").drop q.length := by
        intro hx
        have h3 : (str "@Variables").drop q.length
            = ((str "@Variables").drop 1).drop (q.length - 1) := by
          rw [List.drop_drop]
          congr 1
          omega
        rw [h3] at hx
        have h2 : '@' ∈ (str "@Variables").drop 1 := List.mem_of_mem_drop hx
        revert h2
        decide
      have hpp := pfx_render_plain items _ hbne hat hp
      have hfull : pfx (str "@Variables") (q ++ plainParts items) = true := by
        rw [hsplit, pfx_append_cancel]
        exact hpp
      have h1 := containsSub_of_pfx hfull
      cases h1.symm.trans h

theorem takeWhile_stop {p : Char → Bool} : ∀ (a : Str) (b : Char) (t : Str),
    (∀ x ∈ a, p x = true) → p b = false → (a ++ b :: t).takeWhile p = a := by
  intro a
  induction a with
  | nil =>
    intro b t _ hb
    rw [List.nil_append, List.takeWhile]
    rw [hb]
  | cons x xs ih =>
    intro b t ha hb
    rw [List.cons_append, List.takeWhile]
    rw [ha x (List.mem_cons_self x xs)]
    rw [ih b t (fun y hy => ha y (List.mem_cons_of_mem x hy)) hb]

theorem matchOpenAt_render {c : Str} (hc : rbrace ∉ c) (R : Str) :
    matchOpenAt (' ' :: lbrace :: (c ++ rbrace :: R)) = some (c, R) := by
  have hcontent : (c ++ rbrace :: R).takeWhile (fun d => !(d == rbrace)) = c := by
    apply takeWhile_stop
    · intro x hx
      simp only [Bool.not_eq_eq_eq_not, Bool.not_true, beq_eq_false_iff_ne]
      exact fun he => hc (he ▸ hx)
    · simp
  have key : matchOpenAt (' ' :: lbrace :: (c ++ rbrace :: R)) =
      (if pfx [rbrace] ((c ++ rbrace :: R).drop
          ((c ++ rbrace :: R).takeWhile (fun d => !(d == rbrace))).length) then
        some ((c ++ rbrace :: R).takeWhile (fun d => !(d == rbrace)),
          ((c ++ rbrace :: R).drop
            ((c ++ rbrace :: R).takeWhile (fun d => !(d == rbrace))).length).drop 1)
      else none) := rfl
  rw [key, hcontent]
  have hdrop : (c ++ rbrace :: R).drop c.length = rbrace :: R := List.drop_left _ _
  rw [hdrop]
  have hr : pfx [rbrace] (rbrace :: R) = true := rfl
  rw [if_pos hr]
  rfl

theorem matchBlockAt_default {c : Str} (hc : rbrace ∉ c) (R : Str) :
    matchBlockAt (renderItem (DocItem.defaultBlock c) ++ R) = some R := by
  have e1 : str "@Variables " = str "@Variables" ++ [' '] := rfl
  have hshape : renderItem (DocItem.defaultBlock c) ++ R
      = str "@Variables" ++ (' ' :: lbrace :: (c ++ rbrace :: R)) := by
    rw [renderItem, e1]
    simp [List.append_assoc]
  have key : matchBlockAt (str "@Variables" ++ (' ' :: lbrace :: (c ++ rbrace :: R)))
      = Option.map (fun cr => cr.2) (matchOpenAt (' ' :: lbrace :: (c ++ rbrace :: R))) := rfl
  rw [hshape, key, matchOpenAt_render hc R]
  rfl

theorem matchBlockAt_theme {tag c : Str} (hc : rbrace ∉ c) (htag : '"' ∉ tag) (R : Str) :
    matchBlockAt (renderItem (DocItem.themeBlock tag c) ++ R) = some R := by
  have e1 : str "@Variables[Name=\"" = str "@Variables" ++ str "[Name=\"" := rfl
  have hshape : renderItem (DocItem.themeBlock tag c) ++ R
      = str "@Variables" ++ (str "[Name=\"" ++
          (tag ++ ('"' :: ']' :: ' ' :: lbrace :: (c ++ rbrace :: R)))) := by
    rw [renderItem, e1]
    have e2 : str "\"] " = '"' :: ']' :: [' '] := rfl
    rw [e2]
    simp [List.append_assoc]
  have key : matchBlockAt (str "@Variables" ++ (str "[Name=\"" ++
      (tag ++ ('"' :: ']' :: ' ' :: lbrace :: (c ++ rbrace :: R)))))
      = (if pfx (str "\"]")
            ((tag ++ ('"' :: ']' :: ' ' :: lbrace :: (c ++ rbrace :: R))).drop
              ((tag ++ ('"' :: ']' :: ' ' :: lbrace :: (c ++ rbrace :: R))).takeWhile
                (fun d => !(d == '"'))).length) = true then
          Option.map (fun cr => cr.2) (matchOpenAt
            (((tag ++ ('"' :: ']' :: ' ' :: lbrace :: (c ++ rbrace :: R))).drop
              ((tag ++ ('"' :: ']' :: ' ' :: lbrace :: (c ++ rbrace :: R))).takeWhile
                (fun d => !(d == '"'))).length).drop 2))
        else none) := rfl
  rw [hshape, key]
  have htw : (tag ++ ('"' :: ']' :: ' ' :: lbrace :: (c ++ rbrace :: R))).takeWhile
      (fun d => !(d == '"')) = tag := by
    apply takeWhile_stop
    · intro x hx
      simp only [Bool.not_eq_eq_eq_not, Bool.not_true, beq_eq_false_iff_ne]
      exact fun he => htag (he ▸ hx)
    · simp
  rw [htw]
  have hdropTag : (tag ++ ('"' :: ']' :: ' ' :: lbrace :: (c ++ rbrace :: R))).drop tag.length
      = '"' :: ']' :: ' ' :: lbrace :: (c ++ rbrace :: R) := List.drop_left _ _
  rw [hdropTag]
  have hq : pfx (str "\"]") ('"' :: ']' :: ' ' :: lbrace :: (c ++ rbrace :: R)) = true := rfl
  rw [if_pos hq]
  have hdrop2 : ('"' :: ']' :: ' ' :: lbrace :: (c ++ rbrace :: R)).drop 2
      = ' ' :: lbrace :: (c ++ rbrace :: R) := rfl
  rw [hdrop2, matchOpenAt_render hc R]
  rfl

/-- The C9 document, built from the structured grammar: a default block
giving `K` the value `Variables`, then free text containing `@@K` directly
before a braced rule. -/
def docC9items : List DocItem :=
  [DocItem.defaultBlock (str "@K: Variables;"),
   DocItem.plainText (str "x @@K \x7b color: red \x7d")]

/-- The rendered C9 document text. -/
def docC9 : Str := renderDoc docC9items

theorem matchBlockAt_none {s : Str} (h : pfx (str "@Variables") s = false) :
    matchBlockAt s = none := by
  rw [matchBlockAt]
  simp only [h, Bool.false_eq_true, if_false]

theorem removeBlocks_no_pat : ∀ s : Str, containsSub (str "@Variables") s = false →
    removeBlocks s = s := by
  intro s
  induction s with
  | nil => intro _; rfl
  | cons c rest ih =>
    intro h
    rw [containsSub, Bool.or_eq_false_iff] at h
    rw [removeBlocks_cons_none (matchBlockAt_none h.1), ih h.2]

theorem hasBlockSpan_no_pat : ∀ s : Str, containsSub (str "@Variables") s = false →
    hasBlockSpan s = false := by
  intro s
  induction s with
  | nil => intro _; rfl
  | cons c rest ih =>
    intro h
    rw [containsSub, Bool.or_eq_false_iff] at h
    rw [hasBlockSpan, matchBlockAt_none h.1, ih h.2]
    rfl

/-- The strip pass over a well-formed document with a leading free-text part:
every rendered block is removed in one match, and free text is copied. -/
theorem strip_wf : ∀ (items : List DocItem), (∀ i ∈ items, ItemWf i) →
    ∀ q : Str, containsSub (str "@Variables") (q ++ plainParts items) = false →
    removeBlocks (q ++ renderDoc items) = q ++ plainParts items := by
  intro items
  induction items with
  | nil =>
    intro _ q hq
    rw [renderDoc, List.append_nil]
    rw [plainParts, List.append_nil] at hq ⊢
    exact removeBlocks_no_pat q hq
  | cons item rest ih =>
    intro hwf q hq
    have hwf' : ∀ i ∈ rest, ItemWf i := fun i hi => hwf i (List.mem_cons_of_mem _ hi)
    cases item with
    | plainText s =>
      rw [renderDoc, renderItem, ← List.append_assoc]
      rw [plainParts, ← List.append_assoc] at hq ⊢
      exact ih hwf' (q ++ s) hq
    | defaultBlock c =>
      have hcwf : rbrace ∉ c := hwf _ (List.mem_cons_self _ _)
      rw [plainParts] at hq ⊢
      rw [renderDoc]
      revert hq
      induction q with
      | nil =>
        intro hq
        rw [List.nil_append, List.nil_append]
        have hm := matchBlockAt_default hcwf (renderDoc rest)
        have he : renderItem (DocItem.defaultBlock c) ++ renderDoc rest
            = '@' :: (str "Variables " ++ [lbrace] ++ c ++ [rbrace] ++ renderDoc rest) := rfl
        rw [he] at hm ⊢
        rw [removeBlocks_cons_some hm]
        have h2 := ih hwf' [] (by rw [List.nil_append]; rw [List.nil_append] at hq; exact hq)
        rw [List.nil_append, List.nil_append] at h2
        exact h2
      | cons x xs ihq =>
        intro hq
        have hq' : containsSub (str "@Variables") (xs ++ plainParts rest) = false := by
          rw [List.cons_append] at hq
          exact containsSub_tail hq
        have hseam := no_pat_at_seam (x :: xs) (DocItem.defaultBlock c :: rest) (by simp) (by
          rw [plainParts]
          exact hq)
        rw [renderDoc] at hseam
        rw [List.cons_append] at hseam ⊢
        rw [removeBlocks_cons_none (matchBlockAt_none hseam)]
        rw [List.cons_append]
        rw [ihq hq']
    | themeBlock tag c =>
      obtain ⟨hcwf, htagwf⟩ : rbrace ∉ c ∧ '"' ∉ tag := hwf _ (List.mem_cons_self _ _)
      rw [plainParts] at hq ⊢
      rw [renderDoc]
      revert hq
      induction q with
      | nil =>
        intro hq
        rw [List.nil_append, List.nil_append]
        have hm := matchBlockAt_theme hcwf htagwf (renderDoc rest)
        have he : renderItem (DocItem.themeBlock tag c) ++ renderDoc rest
            = '@' :: (str "Variables[Name=\"" ++ tag ++ str "\"] " ++ [lbrace] ++ c ++ [rbrace]
              ++ renderDoc rest) := rfl
        rw [he] at hm ⊢
        rw [removeBlocks_cons_some hm]
        have h2 := ih hwf' [] (by rw [List.nil_append]; rw [List.nil_append] at hq; exact hq)
        rw [List.nil_append, List.nil_append] at h2
        exact h2
      | cons x xs ihq =>
        intro hq
        have hq' : containsSub (str "@Variables") (xs ++ plainParts rest) = false := by
          rw [List.cons_append] at hq
          exact containsSub_tail hq
        have hseam := no_pat_at_seam (x :: xs) (DocItem.themeBlock tag c :: rest) (by simp) (by
          rw [plainParts]
          exact hq)
        rw [renderDoc] at hseam
        rw [List.cons_append] at hseam ⊢
        rw [removeBlocks_cons_none (matchBlockAt_none hseam)]
        rw [List.cons_append]
        rw [ihq hq']

/-- Claim C9 counterexample: a well-formed document (rendered from the
grammar: a default block declaring `@K: Variables;`, then free text
`x @@K \x7b color: red \x7d` with no `@Variables` occurrence) for which the
final emitted text after block stripping and substitution is
`x @Variables \x7b color: red \x7d` — it contains a variable-block span,
manufactured by substituting `K` into the second `@` of `@@K`. -/
theorem claim_C9_counterexample :
    (∀ i ∈ docC9items, ItemWf i) ∧
    containsSub (str "@Variables") (plainParts docC9items) = false ∧
    (processAndApply 16 noFsW initialState docC9 [] [] false).1 = true ∧
    resolveAllOk 16 (mergedVars docC9 []) = true ∧
    (processAndApply 16 noFsW initialState docC9 [] [] false).2.applied
      = str "x @Variables \x7b color: red \x7d" ∧
    hasBlockSpan (processAndApply 16 noFsW initialState docC9 [] [] false).2.applied
      = true := by
  refine ⟨?_, by decide, by decide, by decide, by decide, by decide⟩
  intro i hi
  rcases List.mem_cons.mp hi with h | h
  · subst h
    exact (by decide : rbrace ∉ str "@K: Variables;")
  · rw [List.mem_singleton] at h
    subst h
    exact trivial

/-- Claim C9 as amended: for every well-formed document (blocks whose bodies
contain no closing brace and whose tags contain no quote, free text without
an `@Variables` occurrence), the block-stripping pass removes every variable
block — the stripped text is exactly the concatenated free text and contains
no variable-block span.  The substitution pass can, however, manufacture a
new block-pattern span out of a substituted value and adjacent free text, as
the counterexample shows, so the no-span guarantee holds for the output of
stripping, not for the final substituted text. -/
theorem claim_C9_amended : ∀ (items : List DocItem), (∀ i ∈ items, ItemWf i) →
    containsSub (str "@Variables") (plainParts items) = false →
    removeBlocks (renderDoc items) = plainParts items ∧
    hasBlockSpan (removeBlocks (renderDoc items)) = false := by
  intro items hwf hq
  have h1 := strip_wf items hwf [] (by rw [List.nil_append]; exact hq)
  rw [List.nil_append] at h1
  refine ⟨h1, ?_⟩
  rw [h1]
  exact hasBlockSpan_no_pat _ hq

/-- Claim C9 (amended) witness at the concrete C9 document. -/
theorem claim_C9_witness :
    removeBlocks (renderDoc docC9items) = plainParts docC9items ∧
    hasBlockSpan (removeBlocks (renderDoc docC9items)) = false :=
  claim_C9_amended docC9items
    (by
      intro i hi
      rcases List.mem_cons.mp hi with h | h
      · subst h
        exact (by decide : rbrace ∉ str "@K: Variables;")
      · rw [List.mem_singleton] at h
        subst h
        exact trivial)
    (by decide)

end StylesheetLoader
